import Mathlib

/-!
Table selection and foreign-key closure of the genna `model` package

A shallow embedding of `model/util.go` (`Split`, `Join`, `Schemas`,
`DiscloseSchemas`, `FollowFKs`, `FilterFKs`, `UniqStrings`) together with the
struct `Table` of `model/table.go` and its method `Validate`.

Conventions of the embedding

* A Go `string` is a Lean `String`; the separator `'.'` is a single byte that
  never occurs inside a multi-byte character, so splitting on it by character
  and by byte agree.  A Go slice is a `List` (a `nil` slice and an empty slice
  are both `[]`).
* A Go `map[string]struct{}` is a `StringSet`: the list of its keys, each key
  once.  A Go `map[string]int` is an `IndexMap`: an association list in which the
  most recent binding of a key is the one that is found.
* Loops are recursive functions that thread the loop's variables.
* An index expression that would panic in Go yields `RunError.indexOutOfRange`.
* The worklist loop of `FollowFKs` is given a budget of loop-condition
  evaluations; exceeding it yields `RunError.outOfFuel`.
* A Go `error` is an `Option GoError`, `none` being `nil`.
-/

namespace Model

/-! ## Data model -/

/-- Modelled from the spec: the declaration of `Column` is not part of the
available sources.  The spec lists a flag `IsFK` telling whether the column
takes part in a foreign key; `Name`, the column's name, stands for the remaining
attributes, none of which `util.go` or `Table.Validate` reads. -/
structure Column where
  Name : String
  IsFK : Bool
deriving DecidableEq, Repr

/-- Modelled from the spec: the declaration of `Relation` is not part of the
available sources.  The spec describes a directed edge from the owning table
to `(TargetSchema, TargetTable)`; these are the two fields `util.go` reads.
`Detail` stands for the remaining attributes. -/
structure Relation where
  TargetSchema : String
  TargetTable : String
  Detail : String
deriving DecidableEq, Repr

/-- The `Table` struct of `table.go`. -/
structure Table where
  Schema : String
  Name : String
  Columns : List Column
  Relations : List Relation
deriving DecidableEq, Repr

/-- Ways in which a run can fail to return a value. -/
inductive RunError where
  | indexOutOfRange
  | outOfFuel
deriving DecidableEq, Repr

deriving instance DecidableEq for Except

/-! ## Go maps -/

/-- A `map[string]struct{}`, represented by its keys. -/
abbrev StringSet := List String

/-- The assignment `index[k] = struct{}{}`. -/
def setAdd (index : StringSet) (k : String) : StringSet :=
  if k ∈ index then index else index ++ [k]

/-- The test `_, ok := index[k]`. -/
def setHas (index : StringSet) (k : String) : Bool :=
  decide (k ∈ index)

/-- The loop `for _, d := range xs { index[d] = struct{}{} }` on a fresh map. -/
def setOfList (xs : List String) : StringSet :=
  xs.foldl setAdd []

/-- A `map[string]int`; the first binding of a key in the list is the live one. -/
abbrev IndexMap := List (String × Nat)

/-- The assignment `m[k] = v`. -/
def mapPut (m : IndexMap) (k : String) (v : Nat) : IndexMap :=
  (k, v) :: m

/-- The lookup `v, ok := m[k]`. -/
def mapGet (m : IndexMap) (k : String) : Option Nat :=
  m.lookup k

/-! ## Identifier codec -/

/-- The constant `PublicSchema`. -/
def PublicSchema : String := "public"

/-- The pieces of a character sequence between consecutive `'.'` characters:
one more piece than there are dots. -/
def splitDot : List Char → List (List Char)
  | [] => [[]]
  | c :: cs =>
    if c = '.' then [] :: splitDot cs
    else
      match splitDot cs with
      | [] => [[c]]
      | seg :: rest => (c :: seg) :: rest

/-- Go's standard-library call `strings.Split(s, ".")`. -/
def stringsSplit (s : String) : List String :=
  (splitDot s.data).map String.mk

/-- The function `Split` of `util.go`. -/
def Split (input : String) : String × String :=
  let d := stringsSplit input
  if h : d.length < 2 then (PublicSchema, input) else (d[0], d[1])

/-- The function `Join` of `util.go`. -/
def Join (schema table : String) : String :=
  schema ++ "." ++ table

/-- The qualified name `Join(t.Schema, t.Name)` of a table. -/
def qualifiedName (t : Table) : String :=
  Join t.Schema t.Name

/-- The qualified name `Join(r.TargetSchema, r.TargetTable)` a relation points to. -/
def relationTarget (r : Relation) : String :=
  Join r.TargetSchema r.TargetTable

/-! ## Schemas and UniqStrings -/

/-- The loop of `Schemas`: `index` and `schemas` are the loop's variables. -/
def schemasLoop : List String → StringSet → List String → List String
  | [], _, schemas => schemas
  | t :: ts, index, schemas =>
    let schema := (Split t).1
    if !setHas index schema then
      schemasLoop ts (setAdd index schema) (schemas ++ [schema])
    else
      schemasLoop ts index schemas

/-- The function `Schemas` of `util.go`. -/
def Schemas (tables : List String) : List String :=
  schemasLoop tables [] []

/-- The loop of `UniqStrings`: `index` and `output` are the loop's variables. -/
def uniqLoop : List String → StringSet → List String → List String
  | [], _, output => output
  | v :: vs, index, output =>
    if !setHas index v then
      uniqLoop vs (setAdd index v) (output ++ [v])
    else
      uniqLoop vs index output

/-- The function `UniqStrings` of `util.go`. -/
def UniqStrings (input : List String) : List String :=
  uniqLoop input [] []

/-! ## DiscloseSchemas -/

/-- The inner loop of the `table == "*"` branch of `DiscloseSchemas`. -/
def discloseWildcard (schema : String) : List Table → StringSet → StringSet
  | [], index => index
  | m :: ms, index =>
    if m.Schema = schema then
      discloseWildcard schema ms (setAdd index (Join m.Schema m.Name))
    else
      discloseWildcard schema ms index

/-- The inner loop of the `else` branch of `DiscloseSchemas`. -/
def discloseExact (schema table : String) : List Table → StringSet → StringSet
  | [], index => index
  | m :: ms, index =>
    if m.Schema = schema ∧ m.Name = table then
      discloseExact schema table ms (setAdd index (Join m.Schema m.Name))
    else
      discloseExact schema table ms index

/-- The loop over `userInput` of `DiscloseSchemas`, threading the map `index`. -/
def discloseIndex (tables : List Table) : List String → StringSet → StringSet
  | [], index => index
  | t :: ts, index =>
    let schema := (Split t).1
    let table := (Split t).2
    if table = "*" then
      discloseIndex tables ts (discloseWildcard schema tables index)
    else
      discloseIndex tables ts (discloseExact schema table tables index)

/-- The function `DiscloseSchemas` of `util.go`.  Go leaves the order in which
`for key := range index` visits the keys unspecified; `rangeOrder` is the order
one run happens to use, given the keys of the map. -/
def DiscloseSchemas (rangeOrder : List String → List String) (tables : List Table)
    (userInput : List String) : List String :=
  let index := discloseIndex tables userInput []
  (rangeOrder index).foldl (fun result key => result ++ [key]) []

/-- What is known of a `range` over a map: every key is visited exactly once. -/
def IsRangeOrder (rangeOrder : List String → List String) : Prop :=
  ∀ keys : List String, (rangeOrder keys).Perm keys

/-! ## FollowFKs -/

/-- The loop `for i, t := range tables { iModels[Join(t.Schema, t.Name)] = i }`,
started at index `i` with the map `iModels`. -/
def indexModels : List Table → Nat → IndexMap → IndexMap
  | [], _, iModels => iModels
  | t :: ts, i, iModels => indexModels ts (i + 1) (mapPut iModels (Join t.Schema t.Name) i)

/-- The variables the worklist loop of `FollowFKs` changes. -/
structure FollowState where
  iTables : StringSet
  disclosed : List String
  count : Nat
deriving DecidableEq, Repr

/-- The loop `for _, r := range tables[m].Relations` of `FollowFKs`. -/
def followRelations (iModels : IndexMap) : List Relation → FollowState → FollowState
  | [], st => st
  | r :: rs, st =>
    let relTable := Join r.TargetSchema r.TargetTable
    let hasModel := (mapGet iModels relTable).isSome
    let present := setHas st.iTables relTable
    if hasModel && !present then
      followRelations iModels rs
        { iTables := setAdd st.iTables relTable
          disclosed := st.disclosed ++ [relTable]
          count := st.count + 1 }
    else
      followRelations iModels rs st

/-- One pass through the body of the worklist loop, at index `i`. -/
def followBody (tables : List Table) (iModels : IndexMap) (i : Nat) (st : FollowState) :
    Except RunError FollowState :=
  match st.disclosed[i]? with
  | none => .error .indexOutOfRange
  | some table =>
    match mapGet iModels table with
    | some m =>
      match tables[m]? with
      | none => .error .indexOutOfRange
      | some t => .ok (followRelations iModels t.Relations st)
    | none => .ok st

/-- The loop `for i := 0; i < count; i++`, allowed `fuel` evaluations of its
condition. -/
def followLoop (tables : List Table) (iModels : IndexMap) :
    Nat → Nat → FollowState → Except RunError (List String)
  | 0, _, _ => .error .outOfFuel
  | fuel + 1, i, st =>
    if i < st.count then
      match followBody tables iModels i st with
      | .ok st' => followLoop tables iModels fuel (i + 1) st'
      | .error e => .error e
    else
      .ok st.disclosed

/-- The function `FollowFKs` of `util.go`, with a budget for its worklist loop. -/
def followFKsWithin (fuel : Nat) (tables : List Table) (disclosed : List String) :
    Except RunError (List String) :=
  let iTables := setOfList disclosed
  let iModels := indexModels tables 0 []
  followLoop tables iModels fuel 0
    { iTables := iTables, disclosed := disclosed, count := disclosed.length }

/-- The function `FollowFKs` of `util.go`.  The budget given to the loop is never
exhausted, and a larger one changes nothing (`followFKs_run`). -/
def FollowFKs (tables : List Table) (disclosed : List String) : Except RunError (List String) :=
  followFKsWithin (disclosed.length + tables.length + 1) tables disclosed

/-! ## FilterFKs -/

/-- The loop `for _, relation := range tables[i].Relations` of `FilterFKs`;
`filtered` is the slice being built. -/
def filterRelations (iTables : StringSet) : List Relation → List Relation → List Relation
  | [], filtered => filtered
  | relation :: rest, filtered =>
    let relTable := Join relation.TargetSchema relation.TargetTable
    if setHas iTables relTable then
      filterRelations iTables rest (filtered ++ [relation])
    else
      filterRelations iTables rest filtered

/-- The loop `for i := range tables` of `FilterFKs`. -/
def filterTables (iTables : StringSet) : List Table → List Table
  | [] => []
  | t :: ts => { t with Relations := filterRelations iTables t.Relations [] } :: filterTables iTables ts

/-- The function `FilterFKs` of `util.go`. -/
def FilterFKs (tables : List Table) (disclosed : List String) : List Table :=
  let iTables := setOfList disclosed
  filterTables iTables tables

/-! ## Table.Validate -/

/-- A Go `error` as `Validate` builds it: the result of `fmt.Errorf`, or of
`errors.Wrap(cause, message)`. -/
inductive GoError where
  | errorf (message : String)
  | wrap (cause : GoError) (message : String)
deriving DecidableEq, Repr

/-- The method `Error()` of an error: the text of an `Errorf` error; for a wrapped
error the wrapping message, a colon and the text of the cause. -/
def GoError.Error : GoError → String
  | .errorf message => message
  | .wrap cause message => message ++ ": " ++ cause.Error

/-- The error an error wraps, if it wraps one. -/
def GoError.Cause : GoError → Option GoError
  | .errorf _ => none
  | .wrap cause _ => some cause

/-- Removal of the leading and the trailing `' '` characters. -/
def trimSpaces (l : List Char) : List Char :=
  ((l.dropWhile fun c => c == ' ').reverse.dropWhile fun c => c == ' ').reverse

/-- Go's standard-library call `strings.Trim(s, " ")`. -/
def stringsTrim (s : String) : String :=
  String.mk (trimSpaces s.data)

/-- The class `\w` of Go regular expressions: `[0-9A-Za-z_]`. -/
def isWordChar (c : Char) : Bool :=
  decide (('0' ≤ c ∧ c ≤ '9') ∨ ('A' ≤ c ∧ c ≤ 'Z') ∨ c = '_' ∨ ('a' ≤ c ∧ c ≤ 'z'))

/-- The class `\d` of Go regular expressions: `[0-9]`. -/
def isDigitChar (c : Char) : Bool :=
  decide ('0' ≤ c ∧ c ≤ '9')

/-- The character class `[^\w\d_]`. -/
def inIllegalClass (c : Char) : Bool :=
  !(isWordChar c || isDigitChar c || c == '_')

/-- The call `rgxp.Match([]byte(s))` for the pattern `[^\w\d_]+`: some
non-empty run of characters of the class occurs in `s`. -/
def regexpMatch (s : String) : Bool :=
  s.data.any inIllegalClass

/-- The loop `for _, column := range t.Columns` of `Validate`.  The method
`Column.Validate` is not part of the available sources and is a parameter. -/
def validateColumns (columnValidate : Column → Option GoError) (relations : List Relation) :
    List Column → Option GoError
  | [] => none
  | column :: rest =>
    match columnValidate column with
    | some err => some (.wrap err "column '%s' is not valid")
    | none =>
      if column.IsFK && relations.length == 0 then
        some (.errorf "table has fkey(s) but no relations")
      else
        validateColumns columnValidate relations rest

/-- The method `Table.Validate` of `table.go`; `none` is the `nil` error. -/
def Table.Validate (columnValidate : Column → Option GoError) (t : Table) : Option GoError :=
  if stringsTrim t.Schema = "" then
    some (.errorf "shema name is empty")
  else if stringsTrim t.Name = "" then
    some (.errorf "table name is empty")
  else if regexpMatch t.Schema then
    some (.errorf ("shema name '" ++ t.Schema ++ "' contains illegal character(s)"))
  else if regexpMatch t.Name then
    some (.errorf ("table name '" ++ t.Name ++ "' contains illegal character(s)"))
  else if t.Columns.length = 0 then
    some (.errorf "table has no columns")
  else
    validateColumns columnValidate t.Relations t.Columns

/-! ## Notions the specification uses -/

/-- The subsequence of `input` that keeps the element at position `i` exactly
when it does not occur at an earlier position. -/
def keepFirstOccurrences (input : List String) : List String :=
  input.enum.filterMap fun p => if p.2 ∈ input.take p.1 then none else some p.2

/-- The segment of a character sequence before its first `'.'` (all of it when
there is none). -/
def segmentBeforeDot (l : List Char) : List Char :=
  l.takeWhile fun c => c != '.'

/-- What follows the first `'.'` of a character sequence (nothing when there is
none). -/
def afterFirstDot (l : List Char) : List Char :=
  (l.dropWhile fun c => c != '.').drop 1

/-- The name `n` is the qualified name of a table of the catalog. -/
def InCatalog (tables : List Table) (n : String) : Prop :=
  ∃ t ∈ tables, qualifiedName t = n

/-- The tables of the catalog have pairwise distinct qualified names. -/
def DistinctNames (tables : List Table) : Prop :=
  (tables.map qualifiedName).Nodup

instance (tables : List Table) : Decidable (DistinctNames tables) :=
  inferInstanceAs (Decidable (tables.map qualifiedName).Nodup)

/-- The set `S` of names is closed under the foreign keys of the catalog: it
contains the target of every relation of a catalog table named in `S`, when that
target is itself the qualified name of a catalog table. -/
def FKClosed (tables : List Table) (S : String → Prop) : Prop :=
  ∀ t ∈ tables, S (qualifiedName t) →
    ∀ r ∈ t.Relations, InCatalog tables (relationTarget r) → S (relationTarget r)

/-- The pattern `p` selects the catalog table `m`. -/
def Selects (p : String) (m : Table) : Prop :=
  m.Schema = (Split p).1 ∧ ((Split p).2 = "*" ∨ m.Name = (Split p).2)

/-- The loop variables of `FollowFKs` agree with each other: `count` is the
length of `disclosed`, and `iTables` holds exactly the names in `disclosed`. -/
structure StateOK (st : FollowState) : Prop where
  count_eq : st.count = st.disclosed.length
  mem_iff : ∀ x, x ∈ st.iTables ↔ x ∈ st.disclosed

/-- The number of catalog entries whose qualified name is not yet in `iTables`. -/
def missing (tables : List Table) (iTables : StringSet) : Nat :=
  ((tables.map qualifiedName).filter fun n => decide (n ∉ iTables)).length

/-- The invariant of the worklist loop of `FollowFKs`, at loop index `i`, for a run
started on `disclosed0`. -/
structure FollowInv (tables : List Table) (disclosed0 : List String) (i : Nat)
    (st : FollowState) : Prop where
  ok : StateOK st
  le : i ≤ st.count
  ext : ∃ added, st.disclosed = disclosed0 ++ added
  origin : ∀ k x, disclosed0.length ≤ k → st.disclosed[k]? = some x →
    InCatalog tables x ∧
      ∃ j n, j < k ∧ st.disclosed[j]? = some n ∧
        ∃ t ∈ tables, qualifiedName t = n ∧ ∃ r ∈ t.Relations, relationTarget r = x
  nodup : disclosed0.Nodup → st.disclosed.Nodup
  processed : ∀ j n, j < i → st.disclosed[j]? = some n →
    ∀ m t, mapGet (indexModels tables 0 []) n = some m → tables[m]? = some t →
      ∀ r ∈ t.Relations, InCatalog tables (relationTarget r) →
        relationTarget r ∈ st.disclosed
  potential : missing tables st.iTables + st.count ≤ tables.length + disclosed0.length

/-- The character belongs to `[A-Za-z0-9_]`. -/
def InIdentClass (c : Char) : Prop :=
  ('A' ≤ c ∧ c ≤ 'Z') ∨ ('a' ≤ c ∧ c ≤ 'z') ∨ ('0' ≤ c ∧ c ≤ '9') ∨ c = '_'

/-- The string is non-empty and consists only of characters in `[A-Za-z0-9_]`. -/
def IsIdentifier (s : String) : Prop :=
  s ≠ "" ∧ ∀ c ∈ s.data, InIdentClass c

/-- The text `part` occurs in `whole` as a contiguous piece. -/
def Contains (whole part : String) : Prop :=
  part.data <:+: whole.data

instance (whole part : String) : Decidable (Contains whole part) :=
  inferInstanceAs (Decidable (part.data <:+: whole.data))

instance (tables : List Table) (n : String) : Decidable (InCatalog tables n) :=
  inferInstanceAs (Decidable (∃ t ∈ tables, qualifiedName t = n))

/-! ## Sample catalogs -/

/-- A table with no columns. -/
def mkTable (schema name : String) (targets : List (String × String)) : Table :=
  { Schema := schema, Name := name, Columns := [],
    Relations := targets.map fun p => { TargetSchema := p.1, TargetTable := p.2, Detail := "" } }

/-- The chain `t1 → t2 → t3`. -/
def chainCatalog : List Table :=
  [mkTable "public" "t1" [("public", "t2")], mkTable "public" "t2" [("public", "t3")],
   mkTable "public" "t3" []]

/-- The cycle `t1 → t2 → t1`. -/
def cycleCatalog : List Table :=
  [mkTable "public" "t1" [("public", "t2")], mkTable "public" "t2" [("public", "t1")]]

/-- A table `t1` whose only relation points to `t4`, which is not in the catalog. -/
def danglingCatalog : List Table :=
  [mkTable "public" "t1" [("public", "t4")]]

/-- Table `t1` with relations to `t2` and to `t3`, and the table `t2`. -/
def pruneCatalog : List Table :=
  [mkTable "public" "t1" [("public", "t2"), ("public", "t3")], mkTable "public" "t2" []]

/-- The catalog a.t1, a.t2. -/
def pairCatalog : List Table :=
  [mkTable "a" "t1" [], mkTable "a" "t2" []]

/-- A stand-in for `Column.Validate` that rejects the column called `name`,
and only that one, for want of a type. -/
def rejectNamed (name : String) : Column → Option GoError :=
  fun c => if c.Name = name then some (.errorf "column type is empty") else none

/-- A table `public.orders` with the columns `id` and `user_ref`. -/
def ordersTable : Table :=
  { Schema := "public", Name := "orders",
    Columns := [{ Name := "id", IsFK := false }, { Name := "user_ref", IsFK := true }],
    Relations := [{ TargetSchema := "public", TargetTable := "users", Detail := "" }] }

/-- A table whose schema is a single tab character. -/
def tabSchemaTable : Table :=
  { Schema := "\t", Name := "users", Columns := [{ Name := "id", IsFK := false }],
    Relations := [] }

/-- A catalog in which two tables share the qualified name `public.t1`; only
the first of them has a relation. -/
def shadowCatalog : List Table :=
  [mkTable "public" "t1" [("public", "t2")], mkTable "public" "t1" [],
   mkTable "public" "t2" []]

/-! ## Lemmas on the map models -/

theorem mem_setAdd (index : StringSet) (k x : String) :
    x ∈ setAdd index k ↔ x ∈ index ∨ x = k := by
  unfold setAdd
  split
  · constructor
    · intro h; exact Or.inl h
    · rintro (h | h)
      · exact h
      · subst h; assumption
  · simp

theorem setHas_iff (index : StringSet) (k : String) : setHas index k = true ↔ k ∈ index := by
  simp [setHas]

theorem setHas_false_iff (index : StringSet) (k : String) :
    setHas index k = false ↔ k ∉ index := by
  simp [setHas]

theorem nodup_setAdd (index : StringSet) (k : String) (h : index.Nodup) :
    (setAdd index k).Nodup := by
  unfold setAdd
  split
  · exact h
  · rw [List.nodup_append]
    refine ⟨h, List.nodup_singleton k, ?_⟩
    intro a ha hb
    simp only [List.mem_singleton] at hb
    subst hb
    contradiction

theorem foldl_setAdd_mem (xs : List String) (index : StringSet) (x : String) :
    x ∈ xs.foldl setAdd index ↔ x ∈ index ∨ x ∈ xs := by
  induction xs generalizing index with
  | nil => simp
  | cons y ys ih =>
    simp only [List.foldl_cons, ih, mem_setAdd, List.mem_cons]
    tauto

theorem mem_setOfList (xs : List String) (x : String) : x ∈ setOfList xs ↔ x ∈ xs := by
  simp [setOfList, foldl_setAdd_mem]

theorem setHas_setOfList (xs : List String) (x : String) :
    setHas (setOfList xs) x = decide (x ∈ xs) := by
  simp [setHas, mem_setOfList]

/-! ## Lemmas on the identifier codec -/

theorem splitDot_eq (l : List Char) :
    splitDot l = l.takeWhile (fun c => c != '.') ::
      (if '.' ∈ l then splitDot ((l.dropWhile (fun c => c != '.')).drop 1) else []) := by
  induction l with
  | nil => simp [splitDot]
  | cons c cs ih =>
    by_cases hc : c = '.'
    · subst hc
      simp [splitDot]
    · have hc' : ('.' : Char) ≠ c := fun h => hc h.symm
      rw [splitDot, if_neg hc, ih]
      simp [hc, hc']

theorem split_of_pieces_one (input a : String) (h : stringsSplit input = [a]) :
    Split input = (PublicSchema, input) := by
  simp [Split, h]

theorem split_of_pieces_two (input a b : String) (rest : List String)
    (h : stringsSplit input = a :: b :: rest) : Split input = (a, b) := by
  simp [Split, h]

theorem split_no_dot (s : String) (h : '.' ∉ s.data) : Split s = (PublicSchema, s) := by
  apply split_of_pieces_one s (String.mk (s.data.takeWhile (fun c => c != '.')))
  unfold stringsSplit
  rw [splitDot_eq, if_neg h]
  rfl

theorem split_dot (s : String) (h : '.' ∈ s.data) :
    Split s = (String.mk (s.data.takeWhile (fun c => c != '.')),
      String.mk (((s.data.dropWhile (fun c => c != '.')).drop 1).takeWhile (fun c => c != '.'))) := by
  apply split_of_pieces_two s _ _
    ((if '.' ∈ (s.data.dropWhile (fun c => c != '.')).drop 1 then
      splitDot ((((s.data.dropWhile (fun c => c != '.')).drop 1).dropWhile
        (fun c => c != '.')).drop 1) else []).map String.mk)
  unfold stringsSplit
  rw [splitDot_eq, if_pos h, splitDot_eq ((s.data.dropWhile (fun c => c != '.')).drop 1)]
  rfl

theorem dropWhile_of_dot (l : List Char) (h : '.' ∈ l) :
    l.dropWhile (fun c => c != '.') = '.' :: (l.dropWhile (fun c => c != '.')).drop 1 := by
  induction l with
  | nil => simp at h
  | cons c cs ih =>
    by_cases hc : c = '.'
    · subst hc; simp
    · have hc' : ('.' : Char) ≠ c := fun h => hc h.symm
      have h' : '.' ∈ cs := by simpa [hc'] using h
      simpa [hc] using ih h'

theorem takeWhile_of_no_dot (l : List Char) (h : '.' ∉ l) :
    l.takeWhile (fun c => c != '.') = l := by
  rw [List.takeWhile_eq_self_iff]
  intro x hx
  have : x ≠ '.' := fun e => h (e ▸ hx)
  simpa using this

theorem count_dot_split (l : List Char) (h : '.' ∈ l) :
    l.count '.' = 1 + ((l.dropWhile (fun c => c != '.')).drop 1).count '.' := by
  induction l with
  | nil => simp at h
  | cons c cs ih =>
    by_cases hc : c = '.'
    · subst hc; simp [List.count_cons]; omega
    · have hc' : ('.' : Char) ≠ c := fun h => hc h.symm
      have h' : '.' ∈ cs := by simpa [hc'] using h
      simpa [hc, List.count_cons] using ih h'

theorem join_data (a b : String) : (Join a b).data = a.data ++ '.' :: b.data := by
  simp [Join, String.data_append]

/-! ## Lemmas on UniqStrings -/

theorem uniqLoop_eq (vs pre : List String) (index : StringSet) (output : List String)
    (hidx : ∀ x, x ∈ index ↔ x ∈ pre) :
    uniqLoop vs index output = output ++
      (vs.enumFrom pre.length).filterMap
        (fun p => if p.2 ∈ (pre ++ vs).take p.1 then none else some p.2) := by
  induction vs generalizing pre index output with
  | nil => simp [uniqLoop]
  | cons v vs ih =>
    have htake : (pre ++ v :: vs).take pre.length = pre := by simp
    have hlen : (pre ++ [v]).length = pre.length + 1 := by simp
    have happ : pre ++ [v] ++ vs = pre ++ v :: vs := by simp
    by_cases hv : v ∈ index
    · have hv' : v ∈ pre := (hidx v).1 hv
      have hidx' : ∀ x, x ∈ index ↔ x ∈ pre ++ [v] := by
        intro x
        rw [hidx x, List.mem_append, List.mem_singleton]
        constructor
        · exact Or.inl
        · rintro (h | h)
          · exact h
          · exact h ▸ hv'
      rw [uniqLoop, (setHas_iff index v).2 hv]
      simp only [Bool.not_true, Bool.false_eq_true, if_false]
      rw [ih (pre ++ [v]) index output hidx', hlen, happ]
      simp [List.enumFrom_cons, List.filterMap_cons, htake, hv']
    · have hv' : v ∉ pre := fun h => hv ((hidx v).2 h)
      have hidx' : ∀ x, x ∈ setAdd index v ↔ x ∈ pre ++ [v] := by
        intro x
        rw [mem_setAdd, hidx x, List.mem_append, List.mem_singleton]
      rw [uniqLoop, (setHas_false_iff index v).2 hv]
      simp only [Bool.not_false, if_true]
      rw [ih (pre ++ [v]) (setAdd index v) (output ++ [v]) hidx', hlen, happ]
      simp [List.enumFrom_cons, List.filterMap_cons, htake, hv']

theorem uniqLoop_props (vs : List String) (index : StringSet) (output : List String)
    (hidx : ∀ x, x ∈ index ↔ x ∈ output) (hnd : output.Nodup) :
    (uniqLoop vs index output).Nodup ∧
      (∀ x, x ∈ uniqLoop vs index output ↔ x ∈ output ∨ x ∈ vs) ∧
      ∃ kept, uniqLoop vs index output = output ++ kept ∧ kept.Sublist vs := by
  induction vs generalizing index output with
  | nil => exact ⟨hnd, by simp [uniqLoop], [], by simp [uniqLoop], List.Sublist.refl _⟩
  | cons v vs ih =>
    by_cases hv : v ∈ index
    · rw [uniqLoop, (setHas_iff index v).2 hv]
      simp only [Bool.not_true, Bool.false_eq_true, if_false]
      obtain ⟨h1, h2, kept, h3, h4⟩ := ih index output hidx hnd
      refine ⟨h1, ?_, kept, h3, h4.cons v⟩
      intro x
      rw [h2 x, List.mem_cons]
      constructor
      · rintro (h | h)
        · exact Or.inl h
        · exact Or.inr (Or.inr h)
      · rintro (h | h | h)
        · exact Or.inl h
        · exact Or.inl (h ▸ (hidx v).1 hv)
        · exact Or.inr h
    · rw [uniqLoop, (setHas_false_iff index v).2 hv]
      simp only [Bool.not_false, if_true]
      have hv' : v ∉ output := fun h => hv ((hidx v).2 h)
      have hidx' : ∀ x, x ∈ setAdd index v ↔ x ∈ output ++ [v] := by
        intro x
        rw [mem_setAdd, hidx x, List.mem_append, List.mem_singleton]
      have hnd' : (output ++ [v]).Nodup := by
        rw [List.nodup_append]
        refine ⟨hnd, List.nodup_singleton v, ?_⟩
        intro a ha hb
        simp only [List.mem_singleton] at hb
        exact hv' (hb ▸ ha)
      obtain ⟨h1, h2, kept, h3, h4⟩ := ih (setAdd index v) (output ++ [v]) hidx' hnd'
      refine ⟨h1, ?_, v :: kept, ?_, h4.cons₂ v⟩
      · intro x
        rw [h2 x, List.mem_append, List.mem_singleton, List.mem_cons]
        tauto
      · rw [h3]; simp

/-! ## Lemmas on FilterFKs -/

theorem filterRelations_eq (iTables : StringSet) (rs filtered : List Relation) :
    filterRelations iTables rs filtered =
      filtered ++ rs.filter (fun r => decide (relationTarget r ∈ iTables)) := by
  induction rs generalizing filtered with
  | nil => simp [filterRelations]
  | cons r rs ih =>
    by_cases h : relationTarget r ∈ iTables
    · have h' : Join r.TargetSchema r.TargetTable ∈ iTables := h
      simp [filterRelations, setHas, h, h', ih]
    · have h' : Join r.TargetSchema r.TargetTable ∉ iTables := h
      simp [filterRelations, setHas, h, h', ih]

theorem filterTables_eq (iTables : StringSet) (tables : List Table) :
    filterTables iTables tables = tables.map fun t =>
      { t with Relations := t.Relations.filter (fun r => decide (relationTarget r ∈ iTables)) } := by
  induction tables with
  | nil => rfl
  | cons t ts ih => simp [filterTables, ih, filterRelations_eq]

theorem filterFKs_eq (tables : List Table) (disclosed : List String) :
    FilterFKs tables disclosed = tables.map fun t =>
      { t with Relations := t.Relations.filter (fun r => decide (relationTarget r ∈ disclosed)) } := by
  simp only [FilterFKs, filterTables_eq, mem_setOfList]

/-! ## Lemmas on DiscloseSchemas -/

theorem discloseWildcard_mem (schema : String) (ms : List Table) (index : StringSet)
    (x : String) :
    x ∈ discloseWildcard schema ms index ↔
      x ∈ index ∨ ∃ m ∈ ms, m.Schema = schema ∧ x = Join m.Schema m.Name := by
  induction ms generalizing index with
  | nil => simp [discloseWildcard]
  | cons m ms ih =>
    rw [discloseWildcard]
    split
    · rename_i hm
      rw [ih, mem_setAdd]
      simp only [List.mem_cons, exists_eq_or_imp]
      tauto
    · rename_i hm
      rw [ih]
      simp only [List.mem_cons, exists_eq_or_imp]
      tauto

theorem discloseExact_mem (schema table : String) (ms : List Table) (index : StringSet)
    (x : String) :
    x ∈ discloseExact schema table ms index ↔
      x ∈ index ∨ ∃ m ∈ ms, (m.Schema = schema ∧ m.Name = table) ∧ x = Join m.Schema m.Name := by
  induction ms generalizing index with
  | nil => simp [discloseExact]
  | cons m ms ih =>
    rw [discloseExact]
    split
    · rename_i hm
      rw [ih, mem_setAdd]
      simp only [List.mem_cons, exists_eq_or_imp]
      tauto
    · rename_i hm
      rw [ih]
      simp only [List.mem_cons, exists_eq_or_imp]
      tauto

theorem discloseIndex_mem (tables : List Table) (ts : List String) (index : StringSet)
    (x : String) :
    x ∈ discloseIndex tables ts index ↔
      x ∈ index ∨ ∃ p ∈ ts, ∃ m ∈ tables, Selects p m ∧ x = Join m.Schema m.Name := by
  induction ts generalizing index with
  | nil => simp [discloseIndex]
  | cons t ts ih =>
    rw [discloseIndex]
    simp only [List.mem_cons, exists_eq_or_imp]
    split
    · rename_i hstar
      rw [ih, discloseWildcard_mem]
      have hsel : ∀ m : Table, Selects t m ↔ m.Schema = (Split t).1 := by
        intro m
        simp [Selects, hstar]
      simp only [hsel, or_assoc]
    · rename_i hstar
      rw [ih, discloseExact_mem]
      have hsel : ∀ m : Table,
          Selects t m ↔ (m.Schema = (Split t).1 ∧ m.Name = (Split t).2) := by
        intro m
        simp [Selects, hstar]
      simp only [hsel, or_assoc]

theorem foldl_append_singleton (keys acc : List String) :
    keys.foldl (fun result key => result ++ [key]) acc = acc ++ keys := by
  induction keys generalizing acc with
  | nil => simp
  | cons k ks ih => simp [ih]

theorem discloseSchemas_eq (rangeOrder : List String → List String) (tables : List Table)
    (userInput : List String) :
    DiscloseSchemas rangeOrder tables userInput =
      rangeOrder (discloseIndex tables userInput []) := by
  simp [DiscloseSchemas, foldl_append_singleton]

/-! ## Lemmas on FollowFKs: the catalog index -/

theorem mapGet_mapPut (m : IndexMap) (k k' : String) (v : Nat) :
    mapGet (mapPut m k v) k' = if k' = k then some v else mapGet m k' := by
  unfold mapGet mapPut
  rw [List.lookup_cons]
  by_cases h : k' = k
  · simp [h]
  · have hb : (k' == k) = false := by simpa using h
    rw [hb, if_neg h]

theorem indexModels_get (ts : List Table) (i : Nat) (m0 : IndexMap) (k : String) (v : Nat)
    (h : mapGet (indexModels ts i m0) k = some v) :
    (∃ j t, ts[j]? = some t ∧ qualifiedName t = k ∧ v = i + j) ∨ mapGet m0 k = some v := by
  induction ts generalizing i m0 with
  | nil => exact Or.inr (by simpa [indexModels] using h)
  | cons t ts ih =>
    rw [indexModels] at h
    rcases ih (i + 1) _ h with ⟨j, t', hj, hk, hv⟩ | h'
    · exact Or.inl ⟨j + 1, t', by simpa using hj, hk, by omega⟩
    · rw [mapGet_mapPut] at h'
      by_cases hk : k = Join t.Schema t.Name
      · rw [if_pos hk] at h'
        refine Or.inl ⟨0, t, by simp, hk.symm, ?_⟩
        simp only [Option.some.injEq] at h'
        omega
      · rw [if_neg hk] at h'
        exact Or.inr h'

theorem indexModels_isSome (ts : List Table) (i : Nat) (m0 : IndexMap) (k : String) :
    (mapGet (indexModels ts i m0) k).isSome ↔
      (∃ t ∈ ts, qualifiedName t = k) ∨ (mapGet m0 k).isSome := by
  induction ts generalizing i m0 with
  | nil => simp [indexModels]
  | cons t ts ih =>
    rw [indexModels, ih, mapGet_mapPut]
    simp only [List.mem_cons, exists_eq_or_imp, qualifiedName]
    by_cases hk : k = Join t.Schema t.Name
    · simp [hk]
    · have hk' : ¬ Join t.Schema t.Name = k := fun e => hk e.symm
      simp [hk, hk']

theorem catalogIndex_get (tables : List Table) (k : String) (v : Nat)
    (h : mapGet (indexModels tables 0 []) k = some v) :
    ∃ t, tables[v]? = some t ∧ qualifiedName t = k := by
  rcases indexModels_get tables 0 [] k v h with ⟨j, t, hj, hk, hv⟩ | h'
  · refine ⟨t, ?_, hk⟩
    have : v = j := by omega
    rw [this]; exact hj
  · simp [mapGet] at h'

theorem catalogIndex_isSome (tables : List Table) (k : String) :
    (mapGet (indexModels tables 0 []) k).isSome ↔ InCatalog tables k := by
  rw [indexModels_isSome]
  simp [InCatalog, mapGet]

/-! ## Lemmas on FollowFKs: the potential -/

theorem missing_le (tables : List Table) (iTables : StringSet) :
    missing tables iTables ≤ tables.length := by
  unfold missing
  calc ((tables.map qualifiedName).filter fun n => decide (n ∉ iTables)).length
      ≤ (tables.map qualifiedName).length := List.length_filter_le _ _
    _ = tables.length := List.length_map _ _

theorem missing_setAdd (tables : List Table) (iTables : StringSet) (k : String)
    (hcat : InCatalog tables k) (hk : k ∉ iTables) :
    missing tables (setAdd iTables k) + 1 ≤ missing tables iTables := by
  unfold missing
  have hk' : k ∈ tables.map qualifiedName := by
    obtain ⟨t, ht, hq⟩ := hcat
    exact List.mem_map.2 ⟨t, ht, hq⟩
  generalize tables.map qualifiedName = names at hk'
  induction names with
  | nil => simp at hk'
  | cons a names ih =>
    by_cases ha : a = k
    · subst ha
      have h1 : a ∈ setAdd iTables a := (mem_setAdd iTables a a).2 (Or.inr rfl)
      have hmono : (names.filter fun n => decide (n ∉ setAdd iTables a)).length ≤
          (names.filter fun n => decide (n ∉ iTables)).length := by
        apply List.Sublist.length_le
        apply List.monotone_filter_right
        intro n hn
        simp only [decide_eq_true_eq] at hn ⊢
        exact fun h => hn ((mem_setAdd iTables a n).2 (Or.inl h))
      simp only [List.filter_cons, h1, hk, not_true_eq_false, decide_False, not_false_eq_true,
        decide_True, if_true, List.length_cons]
      simpa using hmono
    · have hmem : k ∈ names := by
        rcases List.mem_cons.1 hk' with h | h
        · exact absurd h.symm ha
        · exact h
      have hiff : a ∉ setAdd iTables k ↔ a ∉ iTables := by
        rw [mem_setAdd]
        constructor
        · exact fun h h' => h (Or.inl h')
        · rintro h (h' | h')
          · exact h h'
          · exact ha h'
      have ih' := ih hmem
      by_cases hin : a ∈ iTables
      · have hin' : ¬ a ∉ setAdd iTables k := fun h => (hiff.1 h) hin
        simp only [List.filter_cons, hin, hin', not_true_eq_false, decide_False]
        simpa using ih'
      · have hin' : a ∉ setAdd iTables k := hiff.2 hin
        simp only [List.filter_cons, hin, hin', not_false_eq_true, decide_True, if_true,
          List.length_cons]
        simpa using ih'

/-! ## Lemmas on FollowFKs: the relation loop -/

theorem followRelations_append (iModels : IndexMap) (r : Relation) (rs : List Relation)
    (st : FollowState) (h1 : (mapGet iModels (relationTarget r)).isSome = true)
    (h2 : relationTarget r ∉ st.iTables) :
    followRelations iModels (r :: rs) st =
      followRelations iModels rs
        { iTables := setAdd st.iTables (relationTarget r)
          disclosed := st.disclosed ++ [relationTarget r]
          count := st.count + 1 } := by
  have h1' : (mapGet iModels (Join r.TargetSchema r.TargetTable)).isSome = true := h1
  have h2' : setHas st.iTables (Join r.TargetSchema r.TargetTable) = false :=
    (setHas_false_iff _ _).2 h2
  simp [followRelations, h1', h2', relationTarget]

theorem followRelations_skip (iModels : IndexMap) (r : Relation) (rs : List Relation)
    (st : FollowState)
    (h : ¬ ((mapGet iModels (relationTarget r)).isSome = true ∧ relationTarget r ∉ st.iTables)) :
    followRelations iModels (r :: rs) st = followRelations iModels rs st := by
  have h' : ¬ ((mapGet iModels (Join r.TargetSchema r.TargetTable)).isSome = true ∧
      setHas st.iTables (Join r.TargetSchema r.TargetTable) = false) := by
    rw [setHas_false_iff]
    exact h
  rw [followRelations]
  simp only [Bool.and_eq_true, Bool.not_eq_true', h', if_false]

theorem followRelations_spec (tables : List Table) (iModels : IndexMap)
    (hcat : ∀ k, (mapGet iModels k).isSome = true ↔ InCatalog tables k)
    (rs : List Relation) (st : FollowState) (hok : StateOK st) :
    StateOK (followRelations iModels rs st) ∧
      (∃ added, (followRelations iModels rs st).disclosed = st.disclosed ++ added ∧
        added.Nodup ∧
        ∀ x ∈ added, InCatalog tables x ∧ x ∉ st.disclosed ∧ ∃ r ∈ rs, relationTarget r = x) ∧
      (∀ r ∈ rs, InCatalog tables (relationTarget r) →
        relationTarget r ∈ (followRelations iModels rs st).disclosed) ∧
      missing tables (followRelations iModels rs st).iTables +
          (followRelations iModels rs st).count ≤
        missing tables st.iTables + st.count := by
  induction rs generalizing st with
  | nil =>
    exact ⟨hok, ⟨[], by simp [followRelations], List.nodup_nil, by simp⟩, by simp,
      by simp [followRelations]⟩
  | cons r rs ih =>
    by_cases hadm : (mapGet iModels (relationTarget r)).isSome = true ∧
        relationTarget r ∉ st.iTables
    · obtain ⟨h1, h2⟩ := hadm
      rw [followRelations_append iModels r rs st h1 h2]
      have hincat : InCatalog tables (relationTarget r) := (hcat _).1 h1
      have hnot : relationTarget r ∉ st.disclosed := fun h => h2 ((hok.mem_iff _).2 h)
      have hok1 : StateOK
          { iTables := setAdd st.iTables (relationTarget r)
            disclosed := st.disclosed ++ [relationTarget r]
            count := st.count + 1 } := by
        constructor
        · simp [hok.count_eq]
        · intro x
          simp only [mem_setAdd, List.mem_append, List.mem_singleton, hok.mem_iff x]
      obtain ⟨hok', ⟨added, hdis, hnd, hadded⟩, hclosed, hpot⟩ := ih _ hok1
      refine ⟨hok', ⟨relationTarget r :: added, ?_, ?_, ?_⟩, ?_, ?_⟩
      · rw [hdis]; simp
      · rw [List.nodup_cons]
        refine ⟨?_, hnd⟩
        intro hmem
        exact (hadded _ hmem).2.1 (by simp)
      · intro x hx
        rcases List.mem_cons.1 hx with hx | hx
        · subst hx
          exact ⟨hincat, hnot, r, by simp, rfl⟩
        · obtain ⟨hx1, hx2, r', hr', hx3⟩ := hadded x hx
          refine ⟨hx1, ?_, r', List.mem_cons_of_mem _ hr', hx3⟩
          intro hmem
          exact hx2 (List.mem_append_left _ hmem)
      · intro r' hr' hin
        rcases List.mem_cons.1 hr' with hr' | hr'
        · subst hr'
          rw [hdis]
          simp
        · exact hclosed r' hr' hin
      · have hm := missing_setAdd tables st.iTables (relationTarget r) hincat h2
        simp only at hpot
        omega
    · rw [followRelations_skip iModels r rs st hadm]
      obtain ⟨hok', ⟨added, hdis, hnd, hadded⟩, hclosed, hpot⟩ := ih st hok
      refine ⟨hok', ⟨added, hdis, hnd, ?_⟩, ?_, hpot⟩
      · intro x hx
        obtain ⟨hx1, hx2, r', hr', hx3⟩ := hadded x hx
        exact ⟨hx1, hx2, r', List.mem_cons_of_mem _ hr', hx3⟩
      · intro r' hr' hin
        rcases List.mem_cons.1 hr' with hr' | hr'
        · subst hr'
          have hmem : relationTarget r' ∈ st.iTables := by
            by_contra hcon
            exact hadm ⟨(hcat _).2 hin, hcon⟩
          rw [hdis]
          exact List.mem_append_left _ ((hok.mem_iff _).1 hmem)
        · exact hclosed r' hr' hin

/-! ## Lemmas on FollowFKs: the worklist loop -/

theorem followBody_step (tables : List Table) (disclosed0 : List String) (i : Nat)
    (st : FollowState) (hinv : FollowInv tables disclosed0 i st) (hi : i < st.count) :
    ∃ st', followBody tables (indexModels tables 0 []) i st = .ok st' ∧
      FollowInv tables disclosed0 (i + 1) st' := by
  have hlen : i < st.disclosed.length := by rw [← hinv.ok.count_eq]; exact hi
  have hget : st.disclosed[i]? = some st.disclosed[i] := List.getElem?_eq_getElem hlen
  generalize st.disclosed[i] = n at hget
  cases hm : mapGet (indexModels tables 0 []) n with
  | none =>
    refine ⟨st, by simp [followBody, hget, hm], ?_⟩
    refine ⟨hinv.ok, by omega, hinv.ext, hinv.origin, hinv.nodup, ?_, hinv.potential⟩
    intro j n' hj hn' m t hm' ht
    by_cases hji : j < i
    · exact hinv.processed j n' hji hn' m t hm' ht
    · have hje : j = i := by omega
      subst hje
      rw [hget] at hn'
      simp only [Option.some.injEq] at hn'
      subst hn'
      rw [hm] at hm'
      cases hm'
  | some m =>
    obtain ⟨t, ht, hqn⟩ := catalogIndex_get tables n m hm
    have htmem : t ∈ tables := List.getElem?_mem ht
    refine ⟨followRelations (indexModels tables 0 []) t.Relations st,
      by simp [followBody, hget, hm, ht], ?_⟩
    obtain ⟨hok', ⟨added, hdis, hnd, hadded⟩, hclosed, hpot⟩ :=
      followRelations_spec tables (indexModels tables 0 []) (catalogIndex_isSome tables)
        t.Relations st hinv.ok
    have hkeep : ∀ j, j < st.disclosed.length →
        (followRelations (indexModels tables 0 []) t.Relations st).disclosed[j]? =
          st.disclosed[j]? := by
      intro j hj
      rw [hdis]
      exact List.getElem?_append_left hj
    constructor
    · exact hok'
    · rw [hok'.count_eq, hdis, List.length_append]
      omega
    · obtain ⟨added0, h0⟩ := hinv.ext
      exact ⟨added0 ++ added, by rw [hdis, h0, List.append_assoc]⟩
    · intro k x hk hx
      by_cases hkl : k < st.disclosed.length
      · rw [hkeep k hkl] at hx
        obtain ⟨hc, j, n', hj, hn', rest⟩ := hinv.origin k x hk hx
        refine ⟨hc, j, n', hj, ?_, rest⟩
        rw [hkeep j (by omega)]
        exact hn'
      · have hx' : added[k - st.disclosed.length]? = some x := by
          rw [hdis, List.getElem?_append_right (by omega)] at hx
          exact hx
        obtain ⟨hc, _, r, hr, hrx⟩ := hadded x (List.getElem?_mem hx')
        refine ⟨hc, i, n, by omega, ?_, t, htmem, hqn, r, hr, hrx⟩
        rw [hkeep i hlen]
        exact hget
    · intro h0
      rw [hdis, List.nodup_append]
      refine ⟨hinv.nodup h0, hnd, ?_⟩
      intro a ha hb
      exact (hadded a hb).2.1 ha
    · intro j n' hj hn' m' t' hm' ht' r hr hin
      by_cases hji : j < i
      · rw [hkeep j (by omega)] at hn'
        have := hinv.processed j n' hji hn' m' t' hm' ht' r hr hin
        rw [hdis]
        exact List.mem_append_left _ this
      · have hje : j = i := by omega
        subst hje
        rw [hkeep j hlen, hget] at hn'
        simp only [Option.some.injEq] at hn'
        subst hn'
        rw [hm] at hm'
        simp only [Option.some.injEq] at hm'
        subst hm'
        rw [ht] at ht'
        simp only [Option.some.injEq] at ht'
        subst ht'
        exact hclosed r hr hin
    · exact le_trans hpot hinv.potential

theorem followLoop_run (tables : List Table) (disclosed0 : List String) (fuel i : Nat)
    (st : FollowState) (hinv : FollowInv tables disclosed0 i st)
    (hfuel : tables.length + disclosed0.length + 1 ≤ fuel + i) :
    ∃ st', followLoop tables (indexModels tables 0 []) fuel i st = .ok st'.disclosed ∧
      FollowInv tables disclosed0 st'.count st' := by
  induction fuel generalizing i st with
  | zero =>
    have h1 := hinv.le
    have h2 := hinv.potential
    omega
  | succ fuel ih =>
    by_cases hi : i < st.count
    · obtain ⟨st1, hbody, hinv1⟩ := followBody_step tables disclosed0 i st hinv hi
      obtain ⟨st', hrun, hinv'⟩ := ih (i + 1) st1 hinv1 (by omega)
      refine ⟨st', ?_, hinv'⟩
      rw [followLoop, if_pos hi, hbody]
      exact hrun
    · refine ⟨st, by rw [followLoop, if_neg hi], ?_⟩
      have hle := hinv.le
      have heq : i = st.count := by omega
      rw [← heq]
      exact hinv

theorem followLoop_more_fuel (tables : List Table) (iModels : IndexMap) (fuel extra i : Nat)
    (st : FollowState) (out : List String)
    (h : followLoop tables iModels fuel i st = .ok out) :
    followLoop tables iModels (fuel + extra) i st = .ok out := by
  induction fuel generalizing i st with
  | zero => simp [followLoop] at h
  | succ fuel ih =>
    rw [Nat.add_right_comm, followLoop]
    rw [followLoop] at h
    by_cases hi : i < st.count
    · rw [if_pos hi] at h ⊢
      cases hb : followBody tables iModels i st with
      | error e => rw [hb] at h; cases h
      | ok st1 =>
        rw [hb] at h
        exact ih (i + 1) st1 h
    · rw [if_neg hi] at h ⊢
      exact h

theorem followInv_init (tables : List Table) (disclosed : List String) :
    FollowInv tables disclosed 0
      { iTables := setOfList disclosed, disclosed := disclosed, count := disclosed.length } := by
  constructor
  · exact ⟨rfl, fun x => mem_setOfList disclosed x⟩
  · exact Nat.zero_le _
  · exact ⟨[], by simp⟩
  · intro k x hk hx
    rw [List.getElem?_eq_none hk] at hx
    cases hx
  · exact fun h => h
  · intro j n hj
    omega
  · have := missing_le tables (setOfList disclosed)
    simp only
    omega

/-- What a run of `FollowFKs` establishes. -/
theorem followFKs_run (tables : List Table) (disclosed : List String) :
    ∃ out, FollowFKs tables disclosed = .ok out ∧
      (∀ fuel, disclosed.length + tables.length + 1 ≤ fuel →
        followFKsWithin fuel tables disclosed = .ok out) ∧
      (∃ added, out = disclosed ++ added) ∧
      (∀ k x, disclosed.length ≤ k → out[k]? = some x →
        InCatalog tables x ∧
          ∃ j n, j < k ∧ out[j]? = some n ∧
            ∃ t ∈ tables, qualifiedName t = n ∧ ∃ r ∈ t.Relations, relationTarget r = x) ∧
      (disclosed.Nodup → out.Nodup) ∧
      (∀ n ∈ out, ∀ m t, mapGet (indexModels tables 0 []) n = some m → tables[m]? = some t →
        ∀ r ∈ t.Relations, InCatalog tables (relationTarget r) → relationTarget r ∈ out) ∧
      out.length ≤ tables.length + disclosed.length := by
  obtain ⟨st', hrun, hinv⟩ :=
    followLoop_run tables disclosed (disclosed.length + tables.length + 1) 0 _
      (followInv_init tables disclosed) (by omega)
  refine ⟨st'.disclosed, hrun, ?_, hinv.ext, hinv.origin, hinv.nodup, ?_, ?_⟩
  · intro fuel hfuel
    obtain ⟨extra, rfl⟩ := Nat.exists_eq_add_of_le hfuel
    exact followLoop_more_fuel tables _ _ extra 0 _ _ hrun
  · intro n hn m t hm ht r hr hin
    obtain ⟨j, hj⟩ := List.mem_iff_getElem?.1 hn
    have hjlt : j < st'.count := by
      rw [hinv.ok.count_eq]
      exact (List.getElem?_eq_some.1 hj).1
    exact hinv.processed j n hjlt hj m t hm ht r hr hin
  · have h1 := hinv.potential
    have h2 := hinv.ok.count_eq
    omega

/-! ## Further lemmas on the codec, Schemas and DiscloseSchemas -/

theorem takeWhile_append_dot (a b : List Char) (h : '.' ∉ a) :
    (a ++ '.' :: b).takeWhile (fun c => c != '.') = a := by
  induction a with
  | nil => simp
  | cons c cs ih =>
    have hc : c ≠ '.' := fun e => h (by simp [e])
    have hcs : '.' ∉ cs := fun e => h (List.mem_cons_of_mem _ e)
    simp [hc, ih hcs]

theorem dropWhile_append_dot (a b : List Char) (h : '.' ∉ a) :
    (a ++ '.' :: b).dropWhile (fun c => c != '.') = '.' :: b := by
  induction a with
  | nil => simp
  | cons c cs ih =>
    have hc : c ≠ '.' := fun e => h (by simp [e])
    have hcs : '.' ∉ cs := fun e => h (List.mem_cons_of_mem _ e)
    simp [hc, ih hcs]

theorem split_join_of_no_dot (schema table : String) (hs : '.' ∉ schema.data)
    (ht : '.' ∉ table.data) : Split (Join schema table) = (schema, table) := by
  have hmem : '.' ∈ (Join schema table).data := by rw [join_data]; simp
  rw [split_dot _ hmem, join_data, takeWhile_append_dot _ _ hs, dropWhile_append_dot _ _ hs]
  simp [takeWhile_of_no_dot _ ht]

theorem schemasLoop_eq (ts : List String) (index : StringSet) (schemas : List String) :
    schemasLoop ts index schemas = uniqLoop (ts.map fun t => (Split t).1) index schemas := by
  induction ts generalizing index schemas with
  | nil => rfl
  | cons t ts ih =>
    simp only [schemasLoop, List.map_cons, uniqLoop, ih]

theorem nodup_discloseWildcard (schema : String) (ms : List Table) (index : StringSet)
    (h : index.Nodup) : (discloseWildcard schema ms index).Nodup := by
  induction ms generalizing index with
  | nil => exact h
  | cons m ms ih =>
    rw [discloseWildcard]
    split
    · exact ih _ (nodup_setAdd _ _ h)
    · exact ih _ h

theorem nodup_discloseExact (schema table : String) (ms : List Table) (index : StringSet)
    (h : index.Nodup) : (discloseExact schema table ms index).Nodup := by
  induction ms generalizing index with
  | nil => exact h
  | cons m ms ih =>
    rw [discloseExact]
    split
    · exact ih _ (nodup_setAdd _ _ h)
    · exact ih _ h

theorem nodup_discloseIndex (tables : List Table) (ts : List String) (index : StringSet)
    (h : index.Nodup) : (discloseIndex tables ts index).Nodup := by
  induction ts generalizing index with
  | nil => exact h
  | cons t ts ih =>
    rw [discloseIndex]
    split
    · exact ih _ (nodup_discloseWildcard _ _ _ h)
    · exact ih _ (nodup_discloseExact _ _ _ _ h)

theorem discloseSchemas_inCatalog (rangeOrder : List String → List String)
    (horder : IsRangeOrder rangeOrder) (tables : List Table) (userInput : List String)
    (q : String) (hq : q ∈ DiscloseSchemas rangeOrder tables userInput) :
    InCatalog tables q := by
  rw [discloseSchemas_eq, (horder _).mem_iff, discloseIndex_mem] at hq
  rcases hq with hq | ⟨p, _, m, hm, _, hqm⟩
  · simp at hq
  · exact ⟨m, hm, hqm.symm⟩

/-! ## Further lemmas on FollowFKs -/

theorem followRelations_noop (iModels : IndexMap) (rs : List Relation) (st : FollowState)
    (h : ∀ r ∈ rs, (mapGet iModels (relationTarget r)).isSome = true →
      relationTarget r ∈ st.iTables) :
    followRelations iModels rs st = st := by
  induction rs with
  | nil => rfl
  | cons r rs ih =>
    have hskip : ¬ ((mapGet iModels (relationTarget r)).isSome = true ∧
        relationTarget r ∉ st.iTables) := by
      rintro ⟨h1, h2⟩
      exact h2 (h r (by simp) h1)
    rw [followRelations_skip iModels r rs st hskip]
    exact ih (fun r' hr' => h r' (List.mem_cons_of_mem _ hr'))

theorem followLoop_fixed (tables : List Table) (out : List String)
    (hclosed : ∀ n ∈ out, ∀ m t, mapGet (indexModels tables 0 []) n = some m →
      tables[m]? = some t → ∀ r ∈ t.Relations, InCatalog tables (relationTarget r) →
        relationTarget r ∈ out)
    (fuel i : Nat) (hi : i ≤ out.length) (hfuel : out.length + 1 ≤ fuel + i) :
    followLoop tables (indexModels tables 0 []) fuel i
      { iTables := setOfList out, disclosed := out, count := out.length } = .ok out := by
  induction fuel generalizing i with
  | zero => omega
  | succ fuel ih =>
    rw [followLoop]
    by_cases hlt : i < out.length
    · have hget : out[i]? = some out[i] := List.getElem?_eq_getElem hlt
      have hmem : out[i] ∈ out := List.getElem_mem hlt
      generalize out[i] = n at hget hmem
      have hbody : followBody tables (indexModels tables 0 []) i
          { iTables := setOfList out, disclosed := out, count := out.length } =
          .ok { iTables := setOfList out, disclosed := out, count := out.length } := by
        cases hm : mapGet (indexModels tables 0 []) n with
        | none => simp [followBody, hget, hm]
        | some m =>
          obtain ⟨t, ht, _⟩ := catalogIndex_get tables n m hm
          have hnoop := followRelations_noop (indexModels tables 0 []) t.Relations
            { iTables := setOfList out, disclosed := out, count := out.length }
            (fun r hr hsome => (mem_setOfList out _).2
              (hclosed n hmem m t hm ht r hr ((catalogIndex_isSome tables _).1 hsome)))
          simp [followBody, hget, hm, ht, hnoop]
      simp only [hlt, if_true, hbody]
      exact ih (i + 1) (by omega) (by omega)
    · simp only [hlt, if_false]

theorem closed_of_distinct (tables : List Table) (out : List String)
    (hdistinct : DistinctNames tables)
    (hclosed : ∀ n ∈ out, ∀ m t, mapGet (indexModels tables 0 []) n = some m →
      tables[m]? = some t → ∀ r ∈ t.Relations, InCatalog tables (relationTarget r) →
        relationTarget r ∈ out)
    (t : Table) (ht : t ∈ tables) (hqn : qualifiedName t ∈ out) (r : Relation)
    (hr : r ∈ t.Relations) (hin : InCatalog tables (relationTarget r)) :
    relationTarget r ∈ out := by
  have hsome : (mapGet (indexModels tables 0 []) (qualifiedName t)).isSome = true :=
    (catalogIndex_isSome tables _).2 ⟨t, ht, rfl⟩
  obtain ⟨m, hm⟩ := Option.isSome_iff_exists.1 hsome
  obtain ⟨t', ht', htn⟩ := catalogIndex_get tables _ m hm
  have htT : t' = t := List.inj_on_of_nodup_map hdistinct (List.getElem?_mem ht') ht htn
  subst htT
  exact hclosed _ hqn m t' hm ht' r hr hin

/-! ## Lemmas on Table.Validate -/

theorem all_dropWhile_iff (p : Char → Bool) (l : List Char) :
    (∀ x ∈ l.dropWhile p, p x = true) ↔ ∀ x ∈ l, p x = true := by
  induction l with
  | nil => simp
  | cons a l ih =>
    by_cases ha : p a = true
    · rw [List.dropWhile_cons_of_pos ha, ih]
      simp [ha]
    · rw [List.dropWhile_cons_of_neg ha]

theorem trimSpaces_eq_nil (l : List Char) : trimSpaces l = [] ↔ ∀ c ∈ l, c = ' ' := by
  unfold trimSpaces
  rw [List.reverse_eq_nil_iff, List.dropWhile_eq_nil_iff]
  simp only [List.mem_reverse]
  rw [all_dropWhile_iff]
  simp

theorem stringsTrim_eq_empty (s : String) : stringsTrim s = "" ↔ ∀ c ∈ s.data, c = ' ' := by
  unfold stringsTrim
  rw [String.ext_iff]
  exact trimSpaces_eq_nil s.data

theorem inIllegalClass_eq_false (c : Char) : inIllegalClass c = false ↔ InIdentClass c := by
  simp only [inIllegalClass, isWordChar, isDigitChar, InIdentClass, Bool.not_eq_false',
    Bool.or_eq_true, decide_eq_true_eq, beq_iff_eq]
  tauto

theorem regexpMatch_eq_false (s : String) :
    regexpMatch s = false ↔ ∀ c ∈ s.data, InIdentClass c := by
  unfold regexpMatch
  rw [List.any_eq_false]
  constructor
  · intro h c hc
    exact (inIllegalClass_eq_false c).1 (by simpa using h c hc)
  · intro h c hc
    simp [(inIllegalClass_eq_false c).2 (h c hc)]

theorem space_not_ident : ¬ InIdentClass ' ' := by
  unfold InIdentClass
  decide

theorem passes_name_checks_iff (s : String) :
    (¬ stringsTrim s = "" ∧ regexpMatch s = false) ↔ IsIdentifier s := by
  rw [stringsTrim_eq_empty, regexpMatch_eq_false]
  unfold IsIdentifier
  constructor
  · rintro ⟨h1, h2⟩
    refine ⟨?_, h2⟩
    intro he
    apply h1
    rw [he]
    intro c hc
    simp at hc
  · rintro ⟨h1, h2⟩
    refine ⟨?_, h2⟩
    intro hall
    have hne : s.data ≠ [] := fun e => h1 (String.ext_iff.2 e)
    obtain ⟨c, hc⟩ := List.exists_mem_of_ne_nil _ hne
    have := h2 c hc
    rw [hall c hc] at this
    exact space_not_ident this

theorem validateColumns_eq_none (columnValidate : Column → Option GoError)
    (relations : List Relation) (columns : List Column) :
    validateColumns columnValidate relations columns = none ↔
      (∀ c ∈ columns, columnValidate c = none) ∧
        ((∃ c ∈ columns, c.IsFK = true) → relations ≠ []) := by
  induction columns with
  | nil => simp [validateColumns]
  | cons column rest ih =>
    rw [validateColumns]
    cases hcv : columnValidate column with
    | some err =>
      simp only [List.mem_cons, forall_eq_or_imp, hcv]
      simp
    | none =>
      simp only [List.mem_cons, forall_eq_or_imp, hcv, exists_eq_or_imp, true_and]
      by_cases hfk : column.IsFK = true
      · by_cases hrel : relations = []
        · simp [hfk, hrel]
        · have hlen : relations.length ≠ 0 := fun e => hrel (List.length_eq_zero.1 e)
          simp [hfk, hrel, hlen, ih]
      · have hfk' : column.IsFK = false := by simpa using hfk
        simp [hfk', ih]

theorem validateColumns_wrap (columnValidate : Column → Option GoError)
    (relations : List Relation) (columns : List Column) (cause : GoError) (message : String)
    (h : validateColumns columnValidate relations columns = some (.wrap cause message)) :
    message = "column '%s' is not valid" ∧ ∃ c ∈ columns, columnValidate c = some cause := by
  induction columns with
  | nil => simp [validateColumns] at h
  | cons column rest ih =>
    rw [validateColumns] at h
    cases hcv : columnValidate column with
    | some err =>
      rw [hcv] at h
      simp only [Option.some.injEq, GoError.wrap.injEq] at h
      exact ⟨h.2.symm, column, by simp, by rw [hcv, h.1]⟩
    | none =>
      rw [hcv] at h
      simp only at h
      split at h
      · simp at h
      · obtain ⟨h1, c, hc, h2⟩ := ih h
        exact ⟨h1, c, List.mem_cons_of_mem _ hc, h2⟩

theorem validate_eq_none (columnValidate : Column → Option GoError) (t : Table) :
    Table.Validate columnValidate t = none ↔
      IsIdentifier t.Schema ∧ IsIdentifier t.Name ∧ t.Columns ≠ [] ∧
        (∀ c ∈ t.Columns, columnValidate c = none) ∧
        ((∃ c ∈ t.Columns, c.IsFK = true) → t.Relations ≠ []) := by
  rw [← passes_name_checks_iff t.Schema, ← passes_name_checks_iff t.Name,
    ← validateColumns_eq_none]
  unfold Table.Validate
  by_cases h1 : stringsTrim t.Schema = ""
  · simp [h1]
  by_cases h2 : stringsTrim t.Name = ""
  · simp [h1, h2]
  by_cases h3 : regexpMatch t.Schema = true
  · simp [h1, h2, h3]
  by_cases h4 : regexpMatch t.Name = true
  · simp [h1, h2, h3, h4]
  by_cases h5 : t.Columns = []
  · simp [h1, h2, h3, h4, h5]
  · have h5' : t.Columns.length ≠ 0 := fun e => h5 (List.length_eq_zero.1 e)
    simp [h1, h2, h3, h4, h5, h5']

theorem validate_of_blank_schema (columnValidate : Column → Option GoError) (t : Table)
    (h : ∀ c ∈ t.Schema.data, c = ' ') :
    Table.Validate columnValidate t = some (.errorf "shema name is empty") := by
  unfold Table.Validate
  rw [if_pos ((stringsTrim_eq_empty t.Schema).2 h)]

/-! ## Claims on the identifier codec, UniqStrings and FilterFKs -/

/-- C6: the i-th table of `FilterFKs(tables, disclosed)` carries exactly those
relations of the i-th input table, in their original order, whose target
qualified name is an element of `disclosed`; the number of tables is unchanged.
With included names t1, t2 and t1 having relations to t2 and t3, only the
relation to t2 remains. -/
theorem filterFKs_keeps_included_targets (tables : List Table) (disclosed : List String)
    (i : Nat) :
    (FilterFKs tables disclosed).length = tables.length ∧
      ((FilterFKs tables disclosed)[i]?).map Table.Relations =
        (tables[i]?).map (fun t =>
          t.Relations.filter (fun r => decide (relationTarget r ∈ disclosed))) ∧
      ((FilterFKs pruneCatalog ["public.t1", "public.t2"])[0]?).map Table.Relations =
        some [{ TargetSchema := "public", TargetTable := "t2", Detail := "" }] := by
  refine ⟨?_, ?_, by decide⟩
  · simp [filterFKs_eq]
  · rw [filterFKs_eq, List.getElem?_map]
    cases tables[i]? <;> simp

/-- C7: `FilterFKs` is idempotent: filtering the filtered tables against the
same included names changes nothing. -/
theorem filterFKs_idempotent (tables : List Table) (disclosed : List String) :
    FilterFKs (FilterFKs tables disclosed) disclosed = FilterFKs tables disclosed := by
  rw [filterFKs_eq (FilterFKs tables disclosed), filterFKs_eq, List.map_map]
  apply List.map_congr_left
  intro t _
  simp [List.filter_filter]

/-- C8: `UniqStrings(input)` is the subsequence of `input` keeping an element
exactly when it does not occur at an earlier position; it has no duplicates, the
same elements as `input`, and is a subsequence of `input` (so first-occurrence
order is preserved); `[a,b,a,c]` gives `[a,b,c]`. -/
theorem uniqStrings_first_occurrences (input : List String) :
    UniqStrings input = keepFirstOccurrences input ∧
      (UniqStrings input).Nodup ∧
      (∀ x, x ∈ UniqStrings input ↔ x ∈ input) ∧
      (UniqStrings input).Sublist input ∧
      UniqStrings ["a", "b", "a", "c"] = ["a", "b", "c"] := by
  obtain ⟨h1, h2, kept, h3, h4⟩ :=
    uniqLoop_props input [] [] (fun x => Iff.rfl) List.nodup_nil
  refine ⟨?_, h1, ?_, ?_, by decide⟩
  · have h := uniqLoop_eq input [] [] [] (fun x => Iff.rfl)
    simpa [UniqStrings, keepFirstOccurrences, List.enum] using h
  · intro x
    have h := h2 x
    simpa [UniqStrings] using h
  · have h : UniqStrings input = kept := by simpa [UniqStrings] using h3
    rw [h]
    exact h4

/-- C9: for a string without `'.'`, `Split` returns `("public", s)`; otherwise it
returns the segment before the first `'.'` and the segment between the first
`'.'` and the second `'.'` (or the end), ignoring what follows.
`Split("public.users")` and `Split("users")` are both `("public","users")`. -/
theorem split_decomposes (s : String) :
    Split s =
        (if '.' ∈ s.data then
          (String.mk (segmentBeforeDot s.data),
            String.mk (segmentBeforeDot (afterFirstDot s.data)))
        else (PublicSchema, s)) ∧
      Split "public.users" = ("public", "users") ∧
      Split "users" = ("public", "users") ∧
      Split "a.b.c" = ("a", "b") := by
  refine ⟨?_, by decide, by decide, by decide⟩
  by_cases h : '.' ∈ s.data
  · rw [if_pos h]
    exact split_dot s h
  · rw [if_neg h]
    exact split_no_dot s h

/-- C10, as stated, fails: `"a.b.c"` contains the separator, yet joining the
two parts `Split` returns gives `"a.b"`. -/
theorem join_split_not_identity :
    '.' ∈ "a.b.c".data ∧ Join (Split "a.b.c").1 (Split "a.b.c").2 = "a.b" ∧
      Join (Split "a.b.c").1 (Split "a.b.c").2 ≠ "a.b.c" := by
  decide

/-- C10, amended: for every string `q` that contains the separator `'.'` exactly
once, with `(s, t) = Split(q)`, `Join(s, t) = q`. -/
theorem join_split_single_dot (q : String) (h : q.data.count '.' = 1) :
    Join (Split q).1 (Split q).2 = q := by
  have hmem : '.' ∈ q.data := by
    rw [← List.count_pos_iff]
    omega
  have hrest : '.' ∉ (q.data.dropWhile (fun c => c != '.')).drop 1 := by
    have hc := count_dot_split q.data hmem
    rw [← List.count_eq_zero]
    omega
  rw [split_dot q hmem]
  apply String.ext
  rw [join_data]
  simp only [takeWhile_of_no_dot _ hrest]
  rw [← dropWhile_of_dot q.data hmem, List.takeWhile_append_dropWhile]

/-- The amended C10 at `"public.users"`. -/
theorem join_split_single_dot_witness :
    "public.users".data.count '.' = 1 ∧
      Join (Split "public.users").1 (Split "public.users").2 = "public.users" :=
  ⟨by decide, join_split_single_dot "public.users" (by decide)⟩

/-! ## Claims on DiscloseSchemas -/

/-- C5: a string `q` occurs in `DiscloseSchemas(tables, userInput)` if and only
if some pattern `p` of `userInput` and some catalog table `m` satisfy, with
`(s, t) = Split(p)`: `m.Schema = s`, and `t = "*"` or `m.Name = t`, and
`q = Join(m.Schema, m.Name)`.  Hence every output name is the qualified name of
a catalog table, and a pattern matching no table contributes nothing. -/
theorem discloseSchemas_membership (rangeOrder : List String → List String)
    (horder : IsRangeOrder rangeOrder) (tables : List Table) (userInput : List String)
    (q : String) :
    (q ∈ DiscloseSchemas rangeOrder tables userInput ↔
        ∃ p ∈ userInput, ∃ m ∈ tables,
          m.Schema = (Split p).1 ∧ ((Split p).2 = "*" ∨ m.Name = (Split p).2) ∧
            q = Join m.Schema m.Name) ∧
      (q ∈ DiscloseSchemas rangeOrder tables userInput → InCatalog tables q) := by
  have hiff : q ∈ DiscloseSchemas rangeOrder tables userInput ↔
      ∃ p ∈ userInput, ∃ m ∈ tables,
        m.Schema = (Split p).1 ∧ ((Split p).2 = "*" ∨ m.Name = (Split p).2) ∧
          q = Join m.Schema m.Name := by
    rw [discloseSchemas_eq, (horder _).mem_iff, discloseIndex_mem]
    simp [Selects, and_assoc]
  refine ⟨hiff, ?_⟩
  intro hq
  obtain ⟨p, _, m, hm, _, _, hqm⟩ := hiff.1 hq
  exact ⟨m, hm, hqm.symm⟩

/-- C5 on the catalog a.t1, a.t2, b.t3 with the single pattern `a.*`, the map
being ranged over in reverse insertion order. -/
theorem discloseSchemas_membership_witness :
    IsRangeOrder List.reverse ∧
      (("a.t2" ∈ DiscloseSchemas List.reverse
          [mkTable "a" "t1" [], mkTable "a" "t2" [], mkTable "b" "t3" []] ["a.*"] ↔
        ∃ p ∈ ["a.*"],
          ∃ m ∈ [mkTable "a" "t1" [], mkTable "a" "t2" [], mkTable "b" "t3" []],
            m.Schema = (Split p).1 ∧ ((Split p).2 = "*" ∨ m.Name = (Split p).2) ∧
              "a.t2" = Join m.Schema m.Name) ∧
        ("a.t2" ∈ DiscloseSchemas List.reverse
            [mkTable "a" "t1" [], mkTable "a" "t2" [], mkTable "b" "t3" []] ["a.*"] →
          InCatalog [mkTable "a" "t1" [], mkTable "a" "t2" [], mkTable "b" "t3" []] "a.t2")) :=
  ⟨fun keys => List.reverse_perm keys,
    discloseSchemas_membership List.reverse (fun keys => List.reverse_perm keys)
      [mkTable "a" "t1" [], mkTable "a" "t2" [], mkTable "b" "t3" []] ["a.*"] "a.t2"⟩

/-! ## Claims on FollowFKs -/

/-- C1: when the catalog's tables have pairwise distinct qualified names, the
output of `FollowFKs` is closed under catalog foreign keys: if `n` occurs in the
output and is the qualified name of catalog table `T`, then the target of every
relation of `T` that is the qualified name of some catalog table occurs in the
output too.  The chain t1 → t2 → t3 with disclosed `[t1]` yields t1, t2, t3. -/
theorem followFKs_closed_under_fks (tables : List Table) (disclosed : List String)
    (hdistinct : DistinctNames tables) :
    ∃ out, FollowFKs tables disclosed = .ok out ∧
      (∀ n ∈ out, ∀ T ∈ tables, qualifiedName T = n →
        ∀ r ∈ T.Relations, InCatalog tables (relationTarget r) → relationTarget r ∈ out) ∧
      FollowFKs chainCatalog ["public.t1"] = .ok ["public.t1", "public.t2", "public.t3"] := by
  obtain ⟨out, hrun, _, _, _, _, hclosed, _⟩ := followFKs_run tables disclosed
  refine ⟨out, hrun, ?_, by decide⟩
  intro n hn T hT hqn r hr hin
  have hsome : (mapGet (indexModels tables 0 []) n).isSome = true :=
    (catalogIndex_isSome tables n).2 ⟨T, hT, hqn⟩
  obtain ⟨m, hm⟩ := Option.isSome_iff_exists.1 hsome
  obtain ⟨t, ht, htn⟩ := catalogIndex_get tables n m hm
  have htT : t = T :=
    List.inj_on_of_nodup_map hdistinct (List.getElem?_mem ht) hT (htn.trans hqn.symm)
  subst htT
  exact hclosed n hn m t hm ht r hr hin

/-- C1 on the chain catalog with `public.t1` disclosed. -/
theorem followFKs_closed_under_fks_witness :
    DistinctNames chainCatalog ∧
      ∃ out, FollowFKs chainCatalog ["public.t1"] = .ok out ∧
        (∀ n ∈ out, ∀ T ∈ chainCatalog, qualifiedName T = n →
          ∀ r ∈ T.Relations, InCatalog chainCatalog (relationTarget r) →
            relationTarget r ∈ out) ∧
        FollowFKs chainCatalog ["public.t1"] = .ok ["public.t1", "public.t2", "public.t3"] :=
  ⟨by decide, followFKs_closed_under_fks chainCatalog ["public.t1"] (by decide)⟩

/-- C2, as stated, fails: in a catalog where two tables are both named
`public.t1` and only the first has a relation (to `public.t2`, a catalog
table), disclosing `public.t1` returns `public.t1` alone.  Every superset of
the disclosed names that is closed under catalog foreign keys contains
`public.t2`, so the output is not closed, hence not the smallest closed
superset. -/
theorem followFKs_output_not_closed :
    FollowFKs shadowCatalog ["public.t1"] = .ok ["public.t1"] ∧
      ¬ FKClosed shadowCatalog (fun n => n ∈ ["public.t1"]) ∧
      (∀ S : String → Prop, S "public.t1" → FKClosed shadowCatalog S → S "public.t2") := by
  have hstep : ∀ S : String → Prop, S "public.t1" → FKClosed shadowCatalog S →
      S "public.t2" := by
    intro S h1 hS
    exact hS (mkTable "public" "t1" [("public", "t2")]) (by decide) h1
      { TargetSchema := "public", TargetTable := "t2", Detail := "" } (by decide)
      ⟨mkTable "public" "t2" [], by decide, by decide⟩
  refine ⟨by decide, ?_, hstep⟩
  intro hclosed
  have h2 : "public.t2" ∈ ["public.t1"] := hstep _ (by decide) hclosed
  exact absurd h2 (by decide)

/-- C2, amended: for every catalog and disclosed list, `FollowFKs` returns the
disclosed names followed by the admitted ones; every name at a position
`≥ len(disclosed)` is the qualified name of some catalog table and the target of
a relation of a catalog table whose qualified name occurs at an earlier
position; hence the output lies inside every superset of the disclosed names
that is closed under catalog-known foreign-key targets, and a target absent
from the catalog is never added.  When the tables of the catalog have pairwise
distinct qualified names the output is itself closed, so it is the smallest
such superset. -/
theorem followFKs_admits_only_reachable (tables : List Table) (disclosed : List String) :
    ∃ out, FollowFKs tables disclosed = .ok out ∧
      (∃ added, out = disclosed ++ added) ∧
      (∀ k x, disclosed.length ≤ k → out[k]? = some x →
        InCatalog tables x ∧
          ∃ j n, j < k ∧ out[j]? = some n ∧
            ∃ t ∈ tables, qualifiedName t = n ∧ ∃ r ∈ t.Relations, relationTarget r = x) ∧
      (∀ S : String → Prop, (∀ d ∈ disclosed, S d) → FKClosed tables S → ∀ n ∈ out, S n) ∧
      (DistinctNames tables → FKClosed tables (fun n => n ∈ out)) ∧
      FollowFKs danglingCatalog ["public.t1"] = .ok ["public.t1"] := by
  obtain ⟨out, hrun, _, hext, horigin, _, hclosed, _⟩ := followFKs_run tables disclosed
  refine ⟨out, hrun, hext, horigin, ?_, ?_, by decide⟩
  · intro S hS hclS
    have hpos : ∀ (k : Nat) (x : String), out[k]? = some x → S x := by
      intro k
      induction k using Nat.strong_induction_on with
      | _ k ih =>
        intro x hx
        by_cases hk : k < disclosed.length
        · obtain ⟨added, hout⟩ := hext
          rw [hout, List.getElem?_append_left hk] at hx
          exact hS x (List.getElem?_mem hx)
        · obtain ⟨hin, j, n, hj, hn, t, ht, hqn, r, hr, hrx⟩ :=
            horigin k x (by omega) hx
          have hSn : S (qualifiedName t) := hqn ▸ ih j hj n hn
          have := hclS t ht hSn r hr (hrx ▸ hin)
          rw [hrx] at this
          exact this
    intro n hn
    obtain ⟨k, hk⟩ := List.mem_iff_getElem?.1 hn
    exact hpos k n hk
  · intro hdistinct t ht hqn r hr hin
    have hsome : (mapGet (indexModels tables 0 []) (qualifiedName t)).isSome = true :=
      (catalogIndex_isSome tables _).2 ⟨t, ht, rfl⟩
    obtain ⟨m, hm⟩ := Option.isSome_iff_exists.1 hsome
    obtain ⟨t', ht', htn⟩ := catalogIndex_get tables _ m hm
    have htT : t' = t := List.inj_on_of_nodup_map hdistinct (List.getElem?_mem ht') ht htn
    subst htT
    exact hclosed _ hqn m t' hm ht' r hr hin

/-- The amended C2 on the chain catalog, whose names are pairwise distinct:
the output is closed and lies inside every closed superset of the disclosed
names. -/
theorem followFKs_admits_only_reachable_witness :
    DistinctNames chainCatalog ∧
      ∃ out, FollowFKs chainCatalog ["public.t1"] = .ok out ∧
        FKClosed chainCatalog (fun n => n ∈ out) ∧
        (∀ S : String → Prop, (∀ d ∈ ["public.t1"], S d) → FKClosed chainCatalog S →
          ∀ n ∈ out, S n) := by
  obtain ⟨out, hrun, _, _, hleast, hclosed, _⟩ :=
    followFKs_admits_only_reachable chainCatalog ["public.t1"]
  exact ⟨by decide, out, hrun, hclosed (by decide), hleast⟩

/-- C3: for a duplicate-free disclosed list, the output of `FollowFKs` contains
each name at most once, also when the relation graph has cycles; for the cycle
t1 → t2 → t1 with disclosed `[t1]` the result is exactly t1, t2. -/
theorem followFKs_nodup (tables : List Table) (disclosed : List String)
    (hnodup : disclosed.Nodup) :
    ∃ out, FollowFKs tables disclosed = .ok out ∧ out.Nodup ∧
      FollowFKs cycleCatalog ["public.t1"] = .ok ["public.t1", "public.t2"] := by
  obtain ⟨out, hrun, _, _, _, hnd, _, _⟩ := followFKs_run tables disclosed
  exact ⟨out, hrun, hnd hnodup, by decide⟩

/-- C3 on the cycle catalog with `public.t1` disclosed. -/
theorem followFKs_nodup_witness :
    ["public.t1"].Nodup ∧
      ∃ out, FollowFKs cycleCatalog ["public.t1"] = .ok out ∧ out.Nodup ∧
        FollowFKs cycleCatalog ["public.t1"] = .ok ["public.t1", "public.t2"] :=
  ⟨by decide, followFKs_nodup cycleCatalog ["public.t1"] (by decide)⟩

/-- C4: on every catalog and disclosed list the worklist loop of `FollowFKs`
terminates: it returns within `len(disclosed) + len(tables) + 1` evaluations of
its loop condition, a larger budget gives the same result, and the output is
longer than `disclosed` by at most `len(tables)`. -/
theorem followFKs_terminates_bounded (tables : List Table) (disclosed : List String) :
    ∃ out, FollowFKs tables disclosed = .ok out ∧
      (∀ fuel, disclosed.length + tables.length + 1 ≤ fuel →
        followFKsWithin fuel tables disclosed = .ok out) ∧
      disclosed.length ≤ out.length ∧
      out.length - disclosed.length ≤ tables.length := by
  obtain ⟨out, hrun, hfuel, ⟨added, hext⟩, _, _, _, hlen⟩ := followFKs_run tables disclosed
  exact ⟨out, hrun, hfuel, by simp [hext], by omega⟩

/-! ## Further claims on DiscloseSchemas, Schemas, FilterFKs and the codec -/

/-- C14: the output of `DiscloseSchemas` contains each qualified name at most
once, for every catalog and pattern list and whatever the order in which the
map is ranged over; the catalog a.t1, a.t2 with patterns `["a.t1","a.t1"]`
gives exactly a.t1. -/
theorem discloseSchemas_nodup (rangeOrder : List String → List String)
    (horder : IsRangeOrder rangeOrder) (tables : List Table) (userInput : List String) :
    (DiscloseSchemas rangeOrder tables userInput).Nodup ∧
      DiscloseSchemas rangeOrder pairCatalog ["a.t1", "a.t1"] = ["a.t1"] := by
  constructor
  · rw [discloseSchemas_eq, (horder _).nodup_iff]
    exact nodup_discloseIndex tables userInput [] List.nodup_nil
  · rw [discloseSchemas_eq]
    have hidx : discloseIndex pairCatalog ["a.t1", "a.t1"] [] = ["a.t1"] := by decide
    rw [hidx]
    exact List.perm_singleton.1 (horder _)

/-- C14 on a catalog listing a.t1 twice, with the patterns `a.*` and `a.t1`, the
map being ranged over in reverse insertion order. -/
theorem discloseSchemas_nodup_witness :
    IsRangeOrder List.reverse ∧
      (DiscloseSchemas List.reverse
          [mkTable "a" "t1" [], mkTable "a" "t1" [], mkTable "a" "t2" []]
          ["a.*", "a.t1"]).Nodup ∧
      DiscloseSchemas List.reverse pairCatalog ["a.t1", "a.t1"] = ["a.t1"] :=
  ⟨fun keys => List.reverse_perm keys,
    discloseSchemas_nodup List.reverse (fun keys => List.reverse_perm keys)
      [mkTable "a" "t1" [], mkTable "a" "t1" [], mkTable "a" "t2" []] ["a.*", "a.t1"]⟩

/-- C15, as stated, fails: the result is built by ranging over a map, and two
runs that visit the keys in different orders (here insertion order and its
reverse) return different sequences for the catalog a.t1, a.t2 and the pattern
`a.*`. -/
theorem discloseSchemas_order_varies :
    IsRangeOrder (fun keys => keys) ∧ IsRangeOrder List.reverse ∧
      DiscloseSchemas (fun keys => keys) pairCatalog ["a.*"] = ["a.t1", "a.t2"] ∧
      DiscloseSchemas List.reverse pairCatalog ["a.*"] = ["a.t2", "a.t1"] ∧
      DiscloseSchemas (fun keys => keys) pairCatalog ["a.*"] ≠
        DiscloseSchemas List.reverse pairCatalog ["a.*"] :=
  ⟨fun keys => List.Perm.refl keys, fun keys => List.reverse_perm keys, by decide, by decide,
    by decide⟩

/-- C15, amended: any two runs of `DiscloseSchemas` on the same inputs return
the same names, each once: the two sequences are permutations of each other
(their order may differ). -/
theorem discloseSchemas_runs_agree (order₁ order₂ : List String → List String)
    (h₁ : IsRangeOrder order₁) (h₂ : IsRangeOrder order₂) (tables : List Table)
    (userInput : List String) :
    (DiscloseSchemas order₁ tables userInput).Perm (DiscloseSchemas order₂ tables userInput) ∧
      (∀ q, q ∈ DiscloseSchemas order₁ tables userInput ↔
        q ∈ DiscloseSchemas order₂ tables userInput) ∧
      (DiscloseSchemas order₁ tables userInput).Nodup := by
  have hperm : (DiscloseSchemas order₁ tables userInput).Perm
      (DiscloseSchemas order₂ tables userInput) := by
    rw [discloseSchemas_eq, discloseSchemas_eq]
    exact (h₁ _).trans (h₂ _).symm
  refine ⟨hperm, fun q => hperm.mem_iff, ?_⟩
  rw [discloseSchemas_eq, (h₁ _).nodup_iff]
  exact nodup_discloseIndex tables userInput [] List.nodup_nil

/-- The amended C15 for a run in insertion order and a run in reverse order. -/
theorem discloseSchemas_runs_agree_witness :
    IsRangeOrder (fun keys => keys) ∧ IsRangeOrder List.reverse ∧
      (DiscloseSchemas (fun keys => keys) pairCatalog ["a.*"]).Perm
        (DiscloseSchemas List.reverse pairCatalog ["a.*"]) ∧
      (∀ q, q ∈ DiscloseSchemas (fun keys => keys) pairCatalog ["a.*"] ↔
        q ∈ DiscloseSchemas List.reverse pairCatalog ["a.*"]) ∧
      (DiscloseSchemas (fun keys => keys) pairCatalog ["a.*"]).Nodup :=
  ⟨fun keys => List.Perm.refl keys, fun keys => List.reverse_perm keys,
    discloseSchemas_runs_agree (fun keys => keys) List.reverse
      (fun keys => List.Perm.refl keys) (fun keys => List.reverse_perm keys)
      pairCatalog ["a.*"]⟩

/-- C16: `Schemas(tables)` is `UniqStrings` of the list of the first components
of `Split(t)`, for `t` in `tables` in order; a bare name contributes
`"public"`. -/
theorem schemas_eq_uniq_of_split (tables : List String) :
    Schemas tables = UniqStrings (tables.map fun t => (Split t).1) ∧
      Schemas ["users", "a.t1", "public.t2", "a.t3"] = ["public", "a"] := by
  refine ⟨?_, by decide⟩
  simp only [Schemas, UniqStrings, schemasLoop_eq]

/-- C19: `FilterFKs(tables, disclosed)` has as many tables as `tables`, and its
i-th table has the Schema, Name and Columns of the i-th input table: no table
is removed or moved, whether or not its name is among the included ones. -/
theorem filterFKs_frame (tables : List Table) (disclosed : List String) (i : Nat) :
    (FilterFKs tables disclosed).length = tables.length ∧
      ((FilterFKs tables disclosed)[i]?).map (fun t => (t.Schema, t.Name, t.Columns)) =
        (tables[i]?).map (fun t => (t.Schema, t.Name, t.Columns)) ∧
      (FilterFKs pruneCatalog []).map qualifiedName = ["public.t1", "public.t2"] := by
  refine ⟨?_, ?_, by decide⟩
  · simp [filterFKs_eq]
  · rw [filterFKs_eq, List.getElem?_map]
    cases tables[i]? <;> simp

/-- C20: for `schema` and `table` without `'.'`, `Split(Join(schema, table))` is
`(schema, table)`; for some component containing `'.'` (schema `a.b`, table
`c`) it is not. -/
theorem split_join_roundtrip (schema table : String) (hs : '.' ∉ schema.data)
    (ht : '.' ∉ table.data) :
    Split (Join schema table) = (schema, table) ∧
      ∃ s t : String, ('.' ∈ s.data ∨ '.' ∈ t.data) ∧ Split (Join s t) ≠ (s, t) :=
  ⟨split_join_of_no_dot schema table hs ht, "a.b", "c", by decide, by decide⟩

/-- C20 at schema `public`, table `users`. -/
theorem split_join_roundtrip_witness :
    '.' ∉ "public".data ∧ '.' ∉ "users".data ∧
      Split (Join "public" "users") = ("public", "users") ∧
      ∃ s t : String, ('.' ∈ s.data ∨ '.' ∈ t.data) ∧ Split (Join s t) ≠ (s, t) :=
  ⟨by decide, by decide, split_join_roundtrip "public" "users" (by decide) (by decide)⟩

/-! ## Further claims on FollowFKs -/

/-- C17: for a catalog with pairwise distinct qualified names, let `inc` be
`FollowFKs(tables, DiscloseSchemas(tables, userInput))`.  Every catalog table
whose qualified name is in `inc` has in `FilterFKs(tables, inc)`, at its own
position, exactly its original relations whose target is the qualified name of
a catalog table, in their original order; each of them points to a name in
`inc`. -/
theorem pruning_drops_only_dangling (rangeOrder : List String → List String)
    (horder : IsRangeOrder rangeOrder) (tables : List Table)
    (hdistinct : DistinctNames tables) (userInput : List String) :
    ∃ inc, FollowFKs tables (DiscloseSchemas rangeOrder tables userInput) = .ok inc ∧
      ∀ (i : Nat) (t : Table), tables[i]? = some t → qualifiedName t ∈ inc →
        ((FilterFKs tables inc)[i]?).map Table.Relations =
            some (t.Relations.filter fun r => decide (InCatalog tables (relationTarget r))) ∧
          ∀ r ∈ t.Relations.filter fun r => decide (InCatalog tables (relationTarget r)),
            relationTarget r ∈ inc := by
  obtain ⟨inc, hrun, _, ⟨added, hext⟩, horigin, _, hclosed, _⟩ :=
    followFKs_run tables (DiscloseSchemas rangeOrder tables userInput)
  refine ⟨inc, hrun, ?_⟩
  intro i t hti hqn
  have htmem : t ∈ tables := List.getElem?_mem hti
  have hcat : ∀ x ∈ inc, InCatalog tables x := by
    intro x hx
    obtain ⟨k, hk⟩ := List.mem_iff_getElem?.1 hx
    by_cases hkl : k < (DiscloseSchemas rangeOrder tables userInput).length
    · rw [hext, List.getElem?_append_left hkl] at hk
      exact discloseSchemas_inCatalog rangeOrder horder tables userInput x
        (List.getElem?_mem hk)
    · exact (horigin k x (by omega) hk).1
  have hiff : ∀ r ∈ t.Relations,
      (relationTarget r ∈ inc ↔ InCatalog tables (relationTarget r)) := by
    intro r hr
    exact ⟨hcat _, closed_of_distinct tables inc hdistinct hclosed t htmem hqn r hr⟩
  have hfilter : (t.Relations.filter fun r => decide (relationTarget r ∈ inc)) =
      t.Relations.filter fun r => decide (InCatalog tables (relationTarget r)) := by
    apply List.filter_congr
    intro r hr
    simp only [decide_eq_decide]
    exact hiff r hr
  constructor
  · rw [filterFKs_eq, List.getElem?_map, hti, ← hfilter]
    rfl
  · intro r hr
    have hr' := List.mem_filter.1 hr
    exact (hiff r hr'.1).2 (of_decide_eq_true hr'.2)

/-- C17 on the table t1 with relations to t2 (in the catalog) and t3 (not in
it), for the pattern `public.t1`. -/
theorem pruning_drops_only_dangling_witness :
    IsRangeOrder List.reverse ∧ DistinctNames pruneCatalog ∧
      ∃ inc, FollowFKs pruneCatalog (DiscloseSchemas List.reverse pruneCatalog ["public.t1"]) =
          .ok inc ∧
        ∀ (i : Nat) (t : Table), pruneCatalog[i]? = some t → qualifiedName t ∈ inc →
          ((FilterFKs pruneCatalog inc)[i]?).map Table.Relations =
              some (t.Relations.filter fun r =>
                decide (InCatalog pruneCatalog (relationTarget r))) ∧
            ∀ r ∈ t.Relations.filter fun r =>
                decide (InCatalog pruneCatalog (relationTarget r)),
              relationTarget r ∈ inc :=
  ⟨fun keys => List.reverse_perm keys, by decide,
    pruning_drops_only_dangling List.reverse (fun keys => List.reverse_perm keys) pruneCatalog
      (by decide) ["public.t1"]⟩

/-- C18: `FollowFKs` applied to its own output returns that output: a second
pass over an already resolved list appends nothing. -/
theorem followFKs_fixpoint (tables : List Table) (disclosed : List String) :
    ∃ out, FollowFKs tables disclosed = .ok out ∧ FollowFKs tables out = .ok out ∧
      FollowFKs chainCatalog ["public.t1", "public.t2", "public.t3"] =
        FollowFKs chainCatalog ["public.t1"] := by
  obtain ⟨out, hrun, _, _, _, _, hclosed, _⟩ := followFKs_run tables disclosed
  refine ⟨out, hrun, ?_, by decide⟩
  exact followLoop_fixed tables out hclosed (out.length + tables.length + 1) 0
    (Nat.zero_le _) (by omega)

/-! ## Claims on Table.Validate -/

/-- C11: `Validate` returns no error if and only if Schema and Name are
non-empty and consist only of characters in `[A-Za-z0-9_]`, Columns is
non-empty, every column's own `Validate` succeeds, and Relations is non-empty
if some column has IsFK set.  A blank schema, the name `bad-name`, a table
without columns and a table with an FK column and no relations are rejected. -/
theorem validate_accepts_iff (columnValidate : Column → Option GoError) (t : Table) :
    (Table.Validate columnValidate t = none ↔
        IsIdentifier t.Schema ∧ IsIdentifier t.Name ∧ t.Columns ≠ [] ∧
          (∀ c ∈ t.Columns, columnValidate c = none) ∧
          ((∃ c ∈ t.Columns, c.IsFK = true) → t.Relations ≠ [])) ∧
      Table.Validate columnValidate
          { Schema := " ", Name := "users", Columns := [{ Name := "id", IsFK := false }],
            Relations := [] } ≠ none ∧
      Table.Validate columnValidate
          { Schema := "public", Name := "bad-name",
            Columns := [{ Name := "id", IsFK := false }], Relations := [] } ≠ none ∧
      Table.Validate columnValidate
          { Schema := "public", Name := "users", Columns := [], Relations := [] } ≠ none ∧
      Table.Validate columnValidate
          { Schema := "public", Name := "users", Columns := [{ Name := "ref", IsFK := true }],
            Relations := [] } ≠ none := by
  refine ⟨validate_eq_none columnValidate t, ?_, ?_, ?_, ?_⟩
  · intro h
    have h1 := ((validate_eq_none columnValidate _).1 h).1
    exact space_not_ident (h1.2 ' ' (by decide))
  · intro h
    have h2 := ((validate_eq_none columnValidate _).1 h).2.1
    have h3 : InIdentClass '-' := h2.2 '-' (by decide)
    revert h3
    unfold InIdentClass
    decide
  · intro h
    exact ((validate_eq_none columnValidate _).1 h).2.2.1 rfl
  · intro h
    exact ((validate_eq_none columnValidate _).1 h).2.2.2.2
      ⟨{ Name := "ref", IsFK := true }, by simp, rfl⟩ rfl

/-- C12, as stated, fails: a schema made of one tab character is blank after
trimming whitespace, yet `Validate` does not report it as empty: it passes the
emptiness check and is rejected for an illegal character, with another error
than the empty schema gets. -/
theorem validate_tab_schema_not_reported_empty :
    "\t".data.all Char.isWhitespace = true ∧
      Table.Validate (fun _ => none) tabSchemaTable =
        some (.errorf "shema name '\t' contains illegal character(s)") ∧
      (Table.Validate (fun _ => none) tabSchemaTable).map GoError.Error ≠
        some "schema name is empty" ∧
      Table.Validate (fun _ => none) tabSchemaTable ≠
        Table.Validate (fun _ => none) { tabSchemaTable with Schema := "" } := by
  decide

/-- C12, amended: for every table whose Schema is empty or consists only of
space characters, whatever its other fields and whatever its columns' own
validation says, `Validate` fails, and with one and the same error for all such
tables: that of its first check, the schema-emptiness check. -/
theorem validate_blank_schema (columnValidate columnValidate' : Column → Option GoError)
    (t t' : Table) (h : ∀ c ∈ t.Schema.data, c = ' ') (h' : ∀ c ∈ t'.Schema.data, c = ' ') :
    Table.Validate columnValidate t ≠ none ∧
      Table.Validate columnValidate t = Table.Validate columnValidate' t' := by
  rw [validate_of_blank_schema columnValidate t h, validate_of_blank_schema columnValidate' t' h']
  exact ⟨by simp, rfl⟩

/-- The amended C12 for a schema of two spaces, in a table that is wrong in
every other respect, against the empty schema in a table that is otherwise
fine. -/
theorem validate_blank_schema_witness :
    (∀ c ∈ "  ".data, c = ' ') ∧ (∀ c ∈ "".data, c = ' ') ∧
      Table.Validate (rejectNamed "id")
          { Schema := "  ", Name := "bad-name", Columns := [], Relations := [] } ≠ none ∧
      Table.Validate (rejectNamed "id")
          { Schema := "  ", Name := "bad-name", Columns := [], Relations := [] } =
        Table.Validate (fun _ => none) { ordersTable with Schema := "" } :=
  ⟨by decide, by decide,
    validate_blank_schema (rejectNamed "id") (fun _ => none)
      { Schema := "  ", Name := "bad-name", Columns := [], Relations := [] }
      { ordersTable with Schema := "" } (by decide) (by decide)⟩

/-- C13 on the code: when the column `user_ref` of `public.orders` fails its own
validation with the error `column type is empty`, `Validate` returns that error
wrapped with the message `column '%s' is not valid`, the verb left as it is: the
text of the error does not contain `user_ref`.  Whatever the table, the
message of a wrapped error `Validate` returns is this one text. -/
theorem validate_wrap_omits_column :
    Table.Validate (rejectNamed "user_ref") ordersTable =
        some (.wrap (.errorf "column type is empty") "column '%s' is not valid") ∧
      (Table.Validate (rejectNamed "user_ref") ordersTable).map GoError.Error =
        some "column '%s' is not valid: column type is empty" ∧
      ¬ Contains "column '%s' is not valid: column type is empty" "user_ref" ∧
      ∀ (columnValidate : Column → Option GoError) (t : Table) (cause : GoError)
        (message : String),
        Table.Validate columnValidate t = some (.wrap cause message) →
          message = "column '%s' is not valid" := by
  refine ⟨by decide, by decide, by decide, ?_⟩
  intro columnValidate t cause message h
  unfold Table.Validate at h
  split at h
  · simp at h
  split at h
  · simp at h
  split at h
  · simp at h
  split at h
  · simp at h
  split at h
  · simp at h
  exact (validateColumns_wrap columnValidate t.Relations t.Columns cause message h).1

end Model
